import Mathlib

/-!
Verification development for the ts-inject dependency-injection container.

The embedding mirrors `src/memoize.ts`, `src/Container.ts`,
`src/PartialContainer.ts` and `src/Injectable.ts`.

JavaScript objects with identity (memoized factories, containers) are
modelled as an explicit heap: a state `St` holds a list of memoization
cells (`Cell` mirrors the closure produced by `memoize`: a delegate, a
mutable owner reference `thisArg`, and a single cache slot `memo` whose
"empty" value is `undefined`, exactly as `typeof memo !== "undefined"`
checks in memoize.ts) and a list of container objects (token → cell id
association lists, mirroring the plain-object `factories` field).

Service values are `Value`; a factory body is a pure function from the
list of resolved dependency values to a `Value`; it additionally receives
a fresh nonce (drawn from a counter in the state) so that allocating
factories such as `() => new Foo()` can be expressed: each invocation of
any factory body consumes one nonce and appends the factory's `fnId` to
the invocation log, which lets theorems count how often a factory ran.

Resolution (`Container.get`) is a fuel-indexed executor `exec`,
structurally recursive on the fuel so that all runs compute by `rfl`.
Running out of fuel models the unbounded recursion of a genuine
dependency cycle.
-/

namespace TSI

abbrev Token := String

/-- Runtime values (services). `obj id` stands for a freshly allocated
object with identity `id`; `contRef c` is a reference to container `c`;
`undef` is the JavaScript `undefined`. -/
inductive Value where
  | num (n : Int)
  | str (s : String)
  | arr (vs : List Value)
  | obj (id : Nat)
  | contRef (c : Nat)
  | undef

/-- `typeof v !== "undefined"` is false exactly on `undef`. -/
def Value.isUndef : Value → Bool
  | .undef => true
  | _ => false

/-- A raw JavaScript function as passed to the `Injectable` helpers:
its declared parameter count (`fn.length` in JS), an identifier used in
the invocation log, and its body. The body receives the argument list
and a fresh allocation nonce. -/
structure JsFn where
  arity : Nat
  fnId : Nat
  body : List Value → Nat → Value

/-- An `InjectableFunction`: a function tagged with its `token` and
`dependencies`, as produced by `Injectable` / `ConcatInjectable`
(Injectable.ts lines 97-100). -/
structure FactoryFn where
  token : Token
  dependencies : List Token
  fnId : Nat
  body : List Value → Nat → Value

/-- The reserved sentinel token (Container.ts line 34). -/
def CONTAINER : Token := "$container"

/-- The delegate stored in a memoization cell.

* `serviceFn fn snapshot` is the closure built by
  `Container.providesService` (Container.ts lines 525-529): it resolves
  each dependency `t` with `this.get(t)` against the cell's current
  `thisArg`, except occurrences of the factory's own token, which go
  through `getFromParent`, a closure over the container that existed
  before the registration (`snapshot`); `snapshot` is `none` when the
  token is not among the dependencies (then `getFromParent` is
  `undefined` and calling it would crash).
* `boundFn key fn parent siblings` is the closure built by
  `PartialContainer.getFactories` (PartialContainer.ts lines 124-139):
  the dependency equal to the map key resolves from `parent`, a
  dependency defined by a sibling entry of the same PartialContainer
  calls that sibling's memoized cell directly, anything else resolves
  from `parent`. It is an arrow function, so it ignores `thisArg`. -/
inductive Delegate where
  | serviceFn (fn : FactoryFn) (snapshot : Option Nat)
  | boundFn (key : Token) (fn : FactoryFn) (parent : Nat) (siblings : List (Token × Nat))

/-- A memoized factory (the closure returned by `memoize` in memoize.ts):
delegate, mutable owner reference, and the single cache slot, which is
`undefined` while empty. -/
structure Cell where
  delegate : Delegate
  thisArg : Nat
  memo : Value

/-- A container object: its `factories` field, an insertion-ordered
association from token to memoized cell (JS object keys are unique). -/
structure ContainerObj where
  entries : List (Token × Nat)

/-- The heap: all memoization cells, all container objects, the fresh
allocation counter, and the factory-invocation log (a list of `fnId`s in
execution order). -/
structure St where
  cells : List Cell
  conts : List ContainerObj
  fresh : Nat
  log : List Nat

/-! ## Association-list primitives (JS plain-object semantics) -/

/-- First-match lookup in an association list (JS property read). -/
def lookupTok {α : Type} : List (Token × α) → Token → Option α
  | [], _ => none
  | (k, v) :: rest, t => if k = t then some v else lookupTok rest t

/-- Replace-in-place-or-append (the effect of `{...obj, [token]: v}` /
`obj[token] = v` on key order). -/
def setKey {α : Type} : List (Token × α) → Token → α → List (Token × α)
  | [], t, v => [(t, v)]
  | (k, w) :: rest, t, v =>
      if k = t then (t, v) :: rest else (k, w) :: setKey rest t v

theorem lookupTok_setKey_self {α : Type} (l : List (Token × α)) (t : Token) (v : α) :
    lookupTok (setKey l t v) t = some v := by
  induction l with
  | nil => simp [setKey, lookupTok]
  | cons p rest ih =>
      by_cases h : p.1 = t
      · simp [setKey, lookupTok, h]
      · simp [setKey, lookupTok, h, ih]

theorem lookupTok_setKey_ne {α : Type} (l : List (Token × α)) (t u : Token) (v : α)
    (h : t ≠ u) : lookupTok (setKey l t v) u = lookupTok l u := by
  induction l with
  | nil => simp [setKey, lookupTok, h]
  | cons p rest ih =>
      by_cases hp : p.1 = t
      · simp [setKey, lookupTok, hp, h]
      · simp [setKey, lookupTok, hp, ih]

theorem setKey_setKey_self {α : Type} (l : List (Token × α)) (t : Token) (v w : α) :
    setKey (setKey l t v) t w = setKey l t w := by
  induction l with
  | nil => simp [setKey]
  | cons p rest ih =>
      by_cases hp : p.1 = t
      · simp [setKey, hp]
      · simp [setKey, hp, ih]

/-! ## State accessors and primitive mutations -/

/-- Placeholder factory used only as the `getD` default for dangling cell
ids (never reachable from states built by the container operations). -/
def dummyFn : FactoryFn := ⟨"", [], 0, fun _ _ => .undef⟩

def dummyCell : Cell := ⟨.serviceFn dummyFn none, 0, .undef⟩

def getCell (s : St) (cid : Nat) : Cell := s.cells.getD cid dummyCell

def factoriesOf (s : St) (c : Nat) : List (Token × Nat) :=
  (s.conts.getD c ⟨[]⟩).entries

/-- `fn.thisArg = this` (memoize.ts field write, Container.ts line 166). -/
def setThisArg (s : St) (cid : Nat) (o : Nat) : St :=
  { s with cells := s.cells.set cid { getCell s cid with thisArg := o } }

/-- `memo = ...` (memoize.ts line 17). -/
def setMemo (s : St) (cid : Nat) (v : Value) : St :=
  { s with cells := s.cells.set cid { getCell s cid with memo := v } }

/-- `memoize(thisArg, delegate)`: a brand-new cell with an empty cache. -/
def allocCell (s : St) (d : Delegate) (o : Nat) : Nat × St :=
  (s.cells.length, { s with cells := s.cells ++ [⟨d, o, .undef⟩] })

theorem getD_set {α : Type} (l : List α) (i j : Nat) (a d : α) :
    (l.set i a).getD j d = if i = j ∧ i < l.length then a else l.getD j d := by
  by_cases h : i = j
  · subst h
    by_cases hr : i < l.length
    · simp [List.getElem?_set_self hr, hr]
    · simp [List.set_eq_of_length_le (Nat.le_of_not_lt hr), hr]
  · simp [List.getElem?_set_ne h, h]

theorem getCell_setThisArg_eq (s : St) (cid : Nat) (o : Nat) (i : Nat) :
    getCell (setThisArg s cid o) i =
      if cid = i ∧ cid < s.cells.length then { getCell s cid with thisArg := o }
      else getCell s i := by
  simp only [getCell, setThisArg]
  exact getD_set _ _ _ _ _

theorem getCell_setMemo_eq (s : St) (cid : Nat) (v : Value) (i : Nat) :
    getCell (setMemo s cid v) i =
      if cid = i ∧ cid < s.cells.length then { getCell s cid with memo := v }
      else getCell s i := by
  simp only [getCell, setMemo]
  exact getD_set _ _ _ _ _

theorem getCell_setThisArg (s : St) (cid : Nat) (o : Nat) (i : Nat) :
    (getCell (setThisArg s cid o) i).delegate = (getCell s i).delegate ∧
    (getCell (setThisArg s cid o) i).memo = (getCell s i).memo := by
  rw [getCell_setThisArg_eq]
  split
  · next h =>
      rcases h with ⟨h1, _⟩
      subst h1
      exact ⟨rfl, rfl⟩
  · exact ⟨rfl, rfl⟩

theorem getCell_setThisArg_thisArg_stable (s : St) (cid : Nat) (o : Nat) (i : Nat)
    (h : (getCell s i).thisArg = o) :
    (getCell (setThisArg s cid o) i).thisArg = o := by
  rw [getCell_setThisArg_eq]
  split
  · next hc =>
      rcases hc with ⟨h1, _⟩
      subst h1
      rfl
  · exact h

theorem setThisArg_conts (s : St) (cid : Nat) (o : Nat) :
    (setThisArg s cid o).conts = s.conts := rfl

theorem setThisArg_fresh (s : St) (cid : Nat) (o : Nat) :
    (setThisArg s cid o).fresh = s.fresh := rfl

theorem setThisArg_log (s : St) (cid : Nat) (o : Nat) :
    (setThisArg s cid o).log = s.log := rfl

theorem setThisArg_len (s : St) (cid : Nat) (o : Nat) :
    (setThisArg s cid o).cells.length = s.cells.length := by
  simp [setThisArg]

theorem getCell_setMemo_self (s : St) (cid : Nat) (v : Value) (h : cid < s.cells.length) :
    (getCell (setMemo s cid v) cid).memo = v := by
  rw [getCell_setMemo_eq, if_pos ⟨rfl, h⟩]

theorem setMemo_conts (s : St) (cid : Nat) (v : Value) :
    (setMemo s cid v).conts = s.conts := rfl

theorem setMemo_len (s : St) (cid : Nat) (v : Value) :
    (setMemo s cid v).cells.length = s.cells.length := by
  simp [setMemo]

theorem getCell_oob (s : St) (cid : Nat) (h : s.cells.length ≤ cid) :
    getCell s cid = dummyCell := by
  simp [getCell, List.getElem?_eq_none h]

theorem setMemo_oob (s : St) (cid : Nat) (v : Value) (h : s.cells.length ≤ cid) :
    setMemo s cid v = s := by
  simp [setMemo, List.set_eq_of_length_le h]

/-! ## Container construction

The `Container` constructor (Container.ts lines 157-172): every plain
(unmemoized) factory is wrapped in a fresh memoization cell owned by the
new container, and every already-memoized factory keeps its cell but has
its `thisArg` reassigned to the new container. Entries are processed in
object key order. -/

/-- One constructor entry: `inl` a plain delegate (goes through
`memoize(this, fn)`), `inr` an existing memoized cell (gets
`fn.thisArg = this`). -/
abbrev MF := Delegate ⊕ Nat

/-- The loop body of the `Container` constructor: returns the resolved
token → cell association together with the mutated state. `n` is the id
the new container will receive. -/
def mkCells (n : Nat) : St → List (Token × MF) → List (Token × Nat) × St
  | s, [] => ([], s)
  | s, (t, .inr cid) :: rest =>
      let r := mkCells n (setThisArg s cid n) rest
      ((t, cid) :: r.1, r.2)
  | s, (t, .inl d) :: rest =>
      let a := allocCell s d n
      let r := mkCells n a.2 rest
      ((t, a.1) :: r.1, r.2)

/-- `new Container(factories)`: runs the constructor loop and registers
the new container object. Its id is the next free container id. -/
def mkContainer (s : St) (es : List (Token × MF)) : Nat × St :=
  let n := s.conts.length
  let r := mkCells n s es
  (n, { r.2 with conts := r.2.conts ++ [⟨r.1⟩] })

/-- View a token → cell association as constructor entries that are all
already memoized (the `{...this.factories, ...}` spreads). -/
def inrs (l : List (Token × Nat)) : List (Token × MF) :=
  l.map (fun p => (p.1, Sum.inr p.2))

/-- `Container.providesService(fn)` (Container.ts lines 515-535): compute
`getFromParent` (a snapshot of the current container if the factory
depends on its own token), memoize the resolving closure against the
current container, and build a new Container from the extended factories
object. -/
def providesService (s : St) (c : Nat) (fn : FactoryFn) : Nat × St :=
  let snapshot := if fn.dependencies.contains fn.token then some c else none
  let a := allocCell s (.serviceFn fn snapshot) c
  mkContainer a.2 (inrs (setKey (factoriesOf s c) fn.token a.1))

/-- `{...this.factories, ...factories}`: later entries win on collision,
existing keys keep their position. -/
def overlay (base news : List (Token × Nat)) : List (Token × Nat) :=
  news.foldl (fun acc p => setKey acc p.1 p.2) base

/-- `Container.provides(otherContainer)` (Container.ts lines 396-406):
merge the two factories objects; the incoming container's cells are
shared by reference. -/
def providesContainer (s : St) (c : Nat) (other : Nat) : Nat × St :=
  mkContainer s (inrs (overlay (factoriesOf s c) (factoriesOf s other)))

/-- `Container.copy(scopedServices)` (Container.ts lines 207-217): spread
the factories object, then for each scoped token replace the memoized
cell by its raw `delegate`; the constructor re-memoizes those with fresh
caches bound to the copy. (A scoped token absent from the container is
precluded by the TypeScript types; the embedding skips it.) -/
def copy (s : St) (c : Nat) (scopedServices : List Token) : Nat × St :=
  let es := scopedServices.foldl (fun acc tok =>
      match lookupTok (factoriesOf s c) tok with
      | some cid => setKey acc tok (Sum.inl (getCell s cid).delegate)
      | none => acc) (inrs (factoriesOf s c))
  mkContainer s es

/-! ## PartialContainer -/

/-- `PartialContainer`: a mapping from token to *unmemoized*
InjectableFunction (PartialContainer.ts line 72). -/
structure PartialContainer where
  injectables : List (Token × FactoryFn)

def PartialContainer.empty : PartialContainer := ⟨[]⟩

/-- `PartialContainer.provides(fn)` (PartialContainer.ts line 103):
`{ ...this.injectables, [fn.token]: fn }`. -/
def PartialContainer.provides (p : PartialContainer) (fn : FactoryFn) : PartialContainer :=
  ⟨setKey p.injectables fn.token fn⟩

/-- The sibling map `factories!` seen by each closure built in
`getFactories`: every entry of the PartialContainer, in order, paired
with the cell id it is about to receive (ids are allocated sequentially
starting at `base`). -/
def mkSib (base : Nat) : List (Token × FactoryFn) → List (Token × Nat)
  | [] => []
  | (t, _) :: rest => (t, base) :: mkSib (base + 1) rest

/-- `PartialContainer.getFactories(parent)` (PartialContainer.ts lines
122-140): memoize each injectable into a fresh cell whose closure
captures `parent` and the complete sibling map. -/
def getFactories (s : St) (p : PartialContainer) (parent : Nat) :
    List (Token × Nat) × St :=
  let sib := mkSib s.cells.length p.injectables
  (sib, { s with
    cells := s.cells ++ p.injectables.map (fun q => ⟨.boundFn q.1 q.2 parent sib, parent, .undef⟩) })

/-- `Container.provides(partialContainer)` (Container.ts lines 396-406):
bind the partial container against `this`, then merge. -/
def providesPartialC (s : St) (c : Nat) (p : PartialContainer) : Nat × St :=
  let r := getFactories s p c
  mkContainer r.2 (inrs (overlay (factoriesOf s c) r.1))

/-! ## The resolution executor -/

/-- Where one dependency argument position is resolved from:
`fromCont c t` is `c.get(t)`, `fromCell cid` is a direct call of a
sibling memoized factory (`factories![t]()`), `bad` is a call of the
`undefined` `getFromParent` (unreachable from the public constructors). -/
inductive DepSrc where
  | fromCont (c : Nat) (t : Token)
  | fromCell (cid : Nat)
  | bad

/-- Dependency resolution plan of a `providesService` closure
(Container.ts line 528): own token → `getFromParent()`, everything else →
`this.get(t)` against the cell's current owner. -/
def serviceSrcs (fn : FactoryFn) (snapshot : Option Nat) (owner : Nat) : List DepSrc :=
  fn.dependencies.map (fun t =>
    if t = fn.token then
      match snapshot with
      | some p => .fromCont p t
      | none => .bad
    else .fromCont owner t)

/-- Dependency resolution plan of a `getFactories` closure
(PartialContainer.ts lines 129-135): the map key → `parent.get(t)`, a
sibling-defined token → call the sibling cell, else `parent.get(t)`. -/
def boundSrcs (key : Token) (fn : FactoryFn) (parent : Nat)
    (sib : List (Token × Nat)) : List DepSrc :=
  fn.dependencies.map (fun t =>
    if t = key then .fromCont parent t
    else
      match lookupTok sib t with
      | some cid => .fromCell cid
      | none => .fromCont parent t)

def srcsOf (cell : Cell) : List DepSrc :=
  match cell.delegate with
  | .serviceFn fn snap => serviceSrcs fn snap cell.thisArg
  | .boundFn key fn parent sib => boundSrcs key fn parent sib

def fnOf (cell : Cell) : FactoryFn :=
  match cell.delegate with
  | .serviceFn fn _ => fn
  | .boundFn _ fn _ _ => fn

inductive Err where
  | noFuel
  | keyNotFound (msg : String)
  | internal
deriving DecidableEq

/-- The message thrown by `Container.get` for an unregistered token
(Container.ts lines 241-246; the embedding keeps the first sentence,
which is the part containing the offending key). -/
def keyNotFoundMsg (t : Token) : String :=
  "[Container::get] Could not find Service for Token \"" ++ t ++ "\"."

inductive Req where
  | rget (c : Nat) (t : Token)
  | rinvoke (cid : Nat)
  | rdeps (ds : List DepSrc)

inductive Out where
  | val (v : Value)
  | vals (vs : List Value)

/-- The fuel-indexed executor.

* `rget c t` is `c.get(t)` (Container.ts lines 237-249): the sentinel
  token returns the container itself, an absent token throws, otherwise
  the memoized factory is invoked.
* `rinvoke cid` is a call of the memoized closure (memoize.ts lines
  15-19): a non-`undefined` cache slot is returned as is; otherwise the
  delegate resolves its dependency list left to right, the factory body
  runs (consuming a fresh nonce and logging its `fnId`), and the result
  is written to the cache slot.
* `rdeps ds` resolves a dependency list sequentially.

Fuel only bounds recursion depth; running out models the stack
exhaustion of a genuine dependency cycle. -/
def exec : Nat → St → Req → Except Err (Out × St)
  | _, s, .rdeps [] => .ok (.vals [], s)
  | 0, _, _ => .error .noFuel
  | f + 1, s, .rget c t =>
      if t = CONTAINER then .ok (.val (.contRef c), s)
      else
        match lookupTok (factoriesOf s c) t with
        | none => .error (.keyNotFound (keyNotFoundMsg t))
        | some cid => exec f s (.rinvoke cid)
  | f + 1, s, .rinvoke cid =>
      let cell := getCell s cid
      if cell.memo.isUndef then
        match exec f s (.rdeps (srcsOf cell)) with
        | .ok (.vals args, s₁) =>
            let fn := fnOf cell
            let v := fn.body args s₁.fresh
            .ok (.val v,
              setMemo { s₁ with fresh := s₁.fresh + 1, log := s₁.log ++ [fn.fnId] } cid v)
        | .ok (.val _, _) => .error .internal
        | .error e => .error e
      else .ok (.val cell.memo, s)
  | f + 1, s, .rdeps (d :: rest) =>
      let head : Except Err (Value × St) :=
        match d with
        | .fromCont c t =>
            match exec f s (.rget c t) with
            | .ok (.val v, s₁) => .ok (v, s₁)
            | .ok (.vals _, _) => .error .internal
            | .error e => .error e
        | .fromCell cid =>
            match exec f s (.rinvoke cid) with
            | .ok (.val v, s₁) => .ok (v, s₁)
            | .ok (.vals _, _) => .error .internal
            | .error e => .error e
        | .bad => .error .internal
      match head with
      | .ok (v, s₁) =>
          match exec f s₁ (.rdeps rest) with
          | .ok (.vals vs, s₂) => .ok (.vals (v :: vs), s₂)
          | .ok (.val _, _) => .error .internal
          | .error e => .error e
      | .error e => .error e

/-- `Container.get` at the value level. -/
def get (f : Nat) (s : St) (c : Nat) (t : Token) : Except Err (Value × St) :=
  match exec f s (.rget c t) with
  | .ok (.val v, s') => .ok (v, s')
  | .ok (.vals _, _) => .error .internal
  | .error e => .error e

/-! ## The Injectable helpers (Injectable.ts) -/

/-- The runtime union `dependenciesOrFn?: readonly TokenType[] | (() => any)`. -/
inductive JsArg where
  | deps (ds : List Token)
  | fn (f : JsFn)

/-- `JSON.stringify` of a string array. -/
def jsonStrings (ds : List Token) : String :=
  "[" ++ String.intercalate "," (ds.map (fun t => "\"" ++ t ++ "\"")) ++ "]"

/-- The arity-mismatch TypeError message (Injectable.ts lines 90-94). -/
def arityMsg (arity deps : Nat) (ds : List Token) : String :=
  "[Injectable] Function arity does not match the number of dependencies. Function has arity " ++
    toString arity ++ ", but " ++ toString deps ++ " dependencies were specified." ++
    "\nDependencies: " ++ jsonStrings ds

/-- The invalid-arguments TypeError message (Injectable.ts lines 84-86). -/
def invalidArgsMsg : String :=
  "[Injectable] Received invalid arguments. The factory function must be either the second " ++
    "or third argument."

/-- `Injectable(token, dependenciesOrFn?, maybeFn?)` (Injectable.ts lines
75-101). An `error` result models the synchronous TypeError throw. On
success the returned factory forwards to the supplied function and
carries the token and dependency list. -/
def Injectable (token : Token) (dependenciesOrFn : Option JsArg) (maybeFn : Option JsFn) :
    Except String FactoryFn :=
  let dependencies : List Token :=
    match dependenciesOrFn with
    | some (.deps ds) => ds
    | _ => []
  let fn : Option JsFn :=
    match dependenciesOrFn with
    | some (.fn f) => some f
    | _ => maybeFn
  match fn with
  | none => .error invalidArgsMsg
  | some f =>
      if f.arity ≠ dependencies.length then
        .error (arityMsg f.arity dependencies.length dependencies)
      else
        .ok ⟨token, dependencies, f.fnId, f.body⟩

/-- `array.concat(x)`: JS concat spreads an array argument one level and
appends anything else. (On a non-array receiver the real code crashes
with a TypeError; the spec requires the value under an appended token to
already be an array, and no claim exercises that path, so the embedding
returns `undef` there.) -/
def jsConcat (a w : Value) : Value :=
  match a, w with
  | .arr vs, .arr ws => .arr (vs ++ ws)
  | .arr vs, w => .arr (vs ++ [w])
  | _, _ => (Value.undef : Value)

/-- The factory body built by `ConcatInjectable` (Injectable.ts lines
226-228): first argument is the current array under the token, the rest
are the inner function's dependencies. -/
def concatBody (f : JsFn) : List Value → Nat → Value :=
  fun args n => jsConcat (args.headD .undef) (f.body args.tail n)

/-- `ConcatInjectable(token, dependenciesOrFn?, maybeFn?)` (Injectable.ts
lines 203-232): same argument handling and arity check as `Injectable`,
but the produced factory prepends the token itself to the dependency
list and appends the inner function's result to the resolved array. -/
def ConcatInjectable (token : Token) (dependenciesOrFn : Option JsArg) (maybeFn : Option JsFn) :
    Except String FactoryFn :=
  let dependencies : List Token :=
    match dependenciesOrFn with
    | some (.deps ds) => ds
    | _ => []
  let fn : Option JsFn :=
    match dependenciesOrFn with
    | some (.fn f) => some f
    | _ => maybeFn
  match fn with
  | none => .error invalidArgsMsg
  | some f =>
      if f.arity ≠ dependencies.length then
        .error (arityMsg f.arity dependencies.length dependencies)
      else
        .ok ⟨token, token :: dependencies, f.fnId, concatBody f⟩

/-! ## Container sugar methods -/

/-- The zero-dependency factory `Injectable(token, [], () => value)`
registered by `providesValue` (Container.ts lines 436-437). -/
def valueFactory (token : Token) (v : Value) : FactoryFn :=
  ⟨token, [], 0, fun _ _ => v⟩

theorem Injectable_value (token : Token) (v : Value) :
    Injectable token (some (.deps [])) (some ⟨0, 0, fun _ _ => v⟩) = .ok (valueFactory token v) :=
  rfl

/-- `Container.providesValue(token, value)`. -/
def providesValue (s : St) (c : Nat) (token : Token) (v : Value) : Nat × St :=
  providesService s c (valueFactory token v)

/-- The factory `ConcatInjectable(token, () => value)` registered by
`appendValue` (Container.ts lines 455-458). -/
def concatValueFactory (token : Token) (v : Value) : FactoryFn :=
  ⟨token, [token], 0, concatBody ⟨0, 0, fun _ _ => v⟩⟩

theorem ConcatInjectable_value (token : Token) (v : Value) :
    ConcatInjectable token (some (.fn ⟨0, 0, fun _ _ => v⟩)) none
      = .ok (concatValueFactory token v) :=
  rfl

/-- `Container.appendValue(token, value)`. -/
def appendValue (s : St) (c : Nat) (token : Token) (v : Value) : Nat × St :=
  providesService s c (concatValueFactory token v)

/-- The empty starting state: no cells, no containers. -/
def st0 : St := ⟨[], [], 0, []⟩

/-! ## Frame lemmas about the executor

Resolution never creates containers or cells: it only fills cache slots,
bumps the nonce counter and appends to the log. -/

theorem exec_ok_frame :
    ∀ (f : Nat) (q : Req) (s : St) (o : Out) (s' : St),
      exec f s q = .ok (o, s') →
      s'.conts = s.conts ∧ s'.cells.length = s.cells.length := by
  intro f
  induction f with
  | zero =>
      intro q s o s' h
      cases q with
      | rget c t => simp [exec] at h
      | rinvoke cid => simp [exec] at h
      | rdeps ds =>
          cases ds with
          | nil =>
              simp only [exec, Except.ok.injEq, Prod.mk.injEq] at h
              rw [← h.2]
              exact ⟨rfl, rfl⟩
          | cons d rest => simp [exec] at h
  | succ f ih =>
      intro q s o s' h
      cases q with
      | rget c t =>
          by_cases ht : t = CONTAINER
          · simp [exec, ht] at h
            exact ⟨by rw [h.2], by rw [h.2]⟩
          · cases hl : lookupTok (factoriesOf s c) t with
            | none => simp [exec, ht, hl] at h
            | some cid =>
                simp only [exec, if_neg ht, hl] at h
                exact ih _ _ _ _ h
      | rinvoke cid =>
          simp only [exec] at h
          by_cases hm : (getCell s cid).memo.isUndef = true
          · rw [if_pos hm] at h
            cases hd : exec f s (.rdeps (srcsOf (getCell s cid))) with
            | error e => rw [hd] at h; exact absurd h (by simp)
            | ok pr =>
                obtain ⟨out, s₁⟩ := pr
                cases out with
                | val v => rw [hd] at h; exact absurd h (by simp)
                | vals args =>
                    rw [hd] at h
                    simp only [Except.ok.injEq, Prod.mk.injEq] at h
                    have hfr := ih _ _ _ _ hd
                    rw [← h.2]
                    refine ⟨?_, ?_⟩
                    · rw [setMemo_conts]
                      exact hfr.1
                    · rw [setMemo_len]
                      exact hfr.2
          · rw [if_neg hm] at h
            simp only [Except.ok.injEq, Prod.mk.injEq] at h
            rw [← h.2]
            exact ⟨rfl, rfl⟩
      | rdeps ds =>
          cases ds with
          | nil =>
              simp only [exec, Except.ok.injEq, Prod.mk.injEq] at h
              rw [← h.2]
              exact ⟨rfl, rfl⟩
          | cons d rest =>
              simp only [exec] at h
              have step :
                  ∀ (s₁ : St) (v : Value),
                    (match exec f s₁ (.rdeps rest) with
                      | .ok (.vals vs, s₂) => .ok (.vals (v :: vs), s₂)
                      | .ok (.val _, _) => .error Err.internal
                      | .error e => .error e) = Except.ok (o, s') →
                    s₁.conts = s.conts → s₁.cells.length = s.cells.length →
                    s'.conts = s.conts ∧ s'.cells.length = s.cells.length := by
                intro s₁ v hrest hc hl
                cases hr : exec f s₁ (.rdeps rest) with
                | error e => rw [hr] at hrest; exact absurd hrest (by simp)
                | ok pr =>
                    obtain ⟨out, s₂⟩ := pr
                    cases out with
                    | val w => rw [hr] at hrest; exact absurd hrest (by simp)
                    | vals vs =>
                        rw [hr] at hrest
                        simp only [Except.ok.injEq, Prod.mk.injEq] at hrest
                        have := ih _ _ _ _ hr
                        rw [← hrest.2]
                        exact ⟨this.1.trans hc, this.2.trans hl⟩
              cases d with
              | fromCont c t =>
                  dsimp only at h
                  cases hh : exec f s (.rget c t) with
                  | error e => rw [hh] at h; exact absurd h (by simp)
                  | ok pr =>
                      obtain ⟨out, s₁⟩ := pr
                      cases out with
                      | vals vs => rw [hh] at h; exact absurd h (by simp)
                      | val v =>
                          rw [hh] at h
                          have := ih _ _ _ _ hh
                          exact step s₁ v h this.1 this.2
              | fromCell cid =>
                  dsimp only at h
                  cases hh : exec f s (.rinvoke cid) with
                  | error e => rw [hh] at h; exact absurd h (by simp)
                  | ok pr =>
                      obtain ⟨out, s₁⟩ := pr
                      cases out with
                      | vals vs => rw [hh] at h; exact absurd h (by simp)
                      | val v =>
                          rw [hh] at h
                          have := ih _ _ _ _ hh
                          exact step s₁ v h this.1 this.2
              | bad =>
                  dsimp only at h
                  exact absurd h (by simp)

theorem exec_ok_conts (f : Nat) (q : Req) (s : St) (o : Out) (s' : St)
    (h : exec f s q = .ok (o, s')) : s'.conts = s.conts :=
  (exec_ok_frame f q s o s' h).1

theorem exec_ok_cells_length (f : Nat) (q : Req) (s : St) (o : Out) (s' : St)
    (h : exec f s q = .ok (o, s')) : s'.cells.length = s.cells.length :=
  (exec_ok_frame f q s o s' h).2

/-- After a successful invocation the cache slot holds exactly the
returned value (memoize.ts line 17, `memo = delegate.apply(...)`). -/
theorem invoke_ok_memo (f : Nat) (s : St) (cid : Nat) (v : Value) (s' : St)
    (h : exec f s (.rinvoke cid) = .ok (.val v, s')) :
    (getCell s' cid).memo = v := by
  cases f with
  | zero => simp [exec] at h
  | succ f =>
      simp only [exec] at h
      by_cases hm : (getCell s cid).memo.isUndef = true
      · rw [if_pos hm] at h
        cases hd : exec f s (.rdeps (srcsOf (getCell s cid))) with
        | error e => rw [hd] at h; exact absurd h (by simp)
        | ok pr =>
            obtain ⟨out, s₁⟩ := pr
            cases out with
            | val w => rw [hd] at h; exact absurd h (by simp)
            | vals args =>
                rw [hd] at h
                simp only [Except.ok.injEq, Prod.mk.injEq, Out.val.injEq] at h
                rw [← h.2, ← h.1]
                by_cases hr : cid < s.cells.length
                · have hlen := exec_ok_cells_length f _ s _ s₁ hd
                  apply getCell_setMemo_self
                  show cid < s₁.cells.length
                  omega
                · have hlen := exec_ok_cells_length f _ s _ s₁ hd
                  have hcell : getCell s cid = dummyCell := getCell_oob s cid (by omega)
                  have hoob :
                      (St.mk s₁.cells s₁.conts (s₁.fresh + 1)
                        (s₁.log ++ [(fnOf (getCell s cid)).fnId])).cells.length ≤ cid := by
                    show s₁.cells.length ≤ cid
                    omega
                  rw [setMemo_oob _ _ _ hoob, getCell_oob _ _ hoob, hcell]
                  rfl
      · rw [if_neg hm] at h
        simp only [Except.ok.injEq, Prod.mk.injEq, Out.val.injEq] at h
        rw [← h.2]
        exact h.1

/-- A non-`undefined` cache slot is returned as is, without running the
delegate (memoize.ts line 16). -/
theorem invoke_memo_hit (f : Nat) (s : St) (cid : Nat) (v : Value)
    (hm : (getCell s cid).memo = v) (hv : v.isUndef = false) :
    exec (f + 1) s (.rinvoke cid) = .ok (.val v, s) := by
  simp only [exec, hm, hv]
  exact rfl

/-! ## Lemmas about the constructor loop `mkCells` -/

/-- Applying `setThisArg` for a list of already-memoized entries, in
order. -/
def setThisArgs (s : St) (es : List (Token × Nat)) (n : Nat) : St :=
  es.foldl (fun st p => setThisArg st p.2 n) s

theorem mkCells_inrs (n : Nat) (es : List (Token × Nat)) (s : St) :
    mkCells n s (inrs es) = (es, setThisArgs s es n) := by
  induction es generalizing s with
  | nil => rfl
  | cons p rest ih =>
      obtain ⟨t, cid⟩ := p
      simp only [inrs, List.map_cons, mkCells]
      rw [show (rest.map (fun p => (p.1, Sum.inr p.2)) : List (Token × MF)) = inrs rest from rfl]
      rw [ih (setThisArg s cid n)]
      rfl

theorem setThisArgs_conts (s : St) (es : List (Token × Nat)) (n : Nat) :
    (setThisArgs s es n).conts = s.conts := by
  induction es generalizing s with
  | nil => rfl
  | cons p rest ih => simpa [setThisArgs] using ih (setThisArg s p.2 n)

theorem setThisArgs_fresh (s : St) (es : List (Token × Nat)) (n : Nat) :
    (setThisArgs s es n).fresh = s.fresh := by
  induction es generalizing s with
  | nil => rfl
  | cons p rest ih => simpa [setThisArgs] using ih (setThisArg s p.2 n)

theorem setThisArgs_log (s : St) (es : List (Token × Nat)) (n : Nat) :
    (setThisArgs s es n).log = s.log := by
  induction es generalizing s with
  | nil => rfl
  | cons p rest ih => simpa [setThisArgs] using ih (setThisArg s p.2 n)

theorem setThisArgs_len (s : St) (es : List (Token × Nat)) (n : Nat) :
    (setThisArgs s es n).cells.length = s.cells.length := by
  induction es generalizing s with
  | nil => rfl
  | cons p rest ih =>
      simp only [setThisArgs, List.foldl_cons]
      rw [show (rest.foldl (fun st p => setThisArg st p.2 n) (setThisArg s p.2 n)) =
        setThisArgs (setThisArg s p.2 n) rest n from rfl]
      rw [ih, setThisArg_len]

/-- Reassigning owners never touches delegates or cache slots. -/
theorem getCell_setThisArgs (s : St) (es : List (Token × Nat)) (n : Nat) (i : Nat) :
    (getCell (setThisArgs s es n) i).delegate = (getCell s i).delegate ∧
    (getCell (setThisArgs s es n) i).memo = (getCell s i).memo := by
  induction es generalizing s with
  | nil => exact ⟨rfl, rfl⟩
  | cons p rest ih =>
      have h1 := getCell_setThisArg s p.2 n i
      have h2 := ih (setThisArg s p.2 n)
      simp only [setThisArgs, List.foldl_cons]
      exact ⟨(h2.1.trans h1.1 : _), (h2.2.trans h1.2 : _)⟩

theorem getCell_setThisArgs_thisArg_stable (s : St) (es : List (Token × Nat)) (n : Nat)
    (i : Nat) (h : (getCell s i).thisArg = n) :
    (getCell (setThisArgs s es n) i).thisArg = n := by
  induction es generalizing s with
  | nil => exact h
  | cons p rest ih =>
      simp only [setThisArgs, List.foldl_cons]
      exact ih (setThisArg s p.2 n) (getCell_setThisArg_thisArg_stable s p.2 n i h)

/-- An entry listed as memoized ends up owned by `n`. -/
theorem getCell_setThisArgs_mem (s : St) (es : List (Token × Nat)) (n : Nat) (cid : Nat)
    (hmem : cid ∈ es.map Prod.snd) (hr : cid < s.cells.length) :
    (getCell (setThisArgs s es n) cid).thisArg = n := by
  induction es generalizing s with
  | nil => simp at hmem
  | cons p rest ih =>
      simp only [setThisArgs, List.foldl_cons]
      simp only [List.map_cons, List.mem_cons] at hmem
      rcases hmem with hmem | hmem
      · subst hmem
        apply getCell_setThisArgs_thisArg_stable
        rw [getCell_setThisArg_eq, if_pos ⟨rfl, hr⟩]
      · exact ih (setThisArg s p.2 n) hmem (by rw [setThisArg_len]; exact hr)

theorem factoriesOf_setThisArgs (s : St) (es : List (Token × Nat)) (n : Nat) (c : Nat) :
    factoriesOf (setThisArgs s es n) c = factoriesOf s c := by
  simp [factoriesOf, setThisArgs_conts]

theorem getD_concat {α : Type} (l : List α) (x : α) (c : Nat) (d : α) :
    (l ++ [x]).getD c d = if c = l.length then x else l.getD c d := by
  by_cases h : c = l.length
  · subst h
    simp [List.getElem?_concat_length]
  · by_cases hlt : c < l.length
    · simp [List.getElem?_append_left hlt, h]
    · rw [if_neg h]
      rw [List.getD_eq_getElem?_getD, List.getD_eq_getElem?_getD]
      rw [List.getElem?_eq_none (by simp; omega), List.getElem?_eq_none (by omega)]

theorem getCell_allocCell_lt (s : St) (d : Delegate) (o : Nat) (i : Nat)
    (h : i < s.cells.length) : getCell (allocCell s d o).2 i = getCell s i := by
  simp only [getCell, allocCell]
  rw [List.getD_eq_getElem?_getD, List.getD_eq_getElem?_getD, List.getElem?_append_left h]

theorem getCell_allocCell_new (s : St) (d : Delegate) (o : Nat) :
    getCell (allocCell s d o).2 s.cells.length = ⟨d, o, .undef⟩ := by
  simp only [getCell, allocCell]
  rw [List.getD_eq_getElem?_getD, List.getElem?_concat_length]
  rfl

/-- Cell contents (other than owners) survive the constructor loop. -/
theorem getCell_mkCells (n : Nat) (es : List (Token × MF)) :
    ∀ (s : St) (i : Nat), i < s.cells.length →
      (getCell (mkCells n s es).2 i).delegate = (getCell s i).delegate ∧
      (getCell (mkCells n s es).2 i).memo = (getCell s i).memo := by
  induction es with
  | nil => exact fun s i _ => ⟨rfl, rfl⟩
  | cons p rest ih =>
      intro s i h
      obtain ⟨t, e⟩ := p
      cases e with
      | inr cid =>
          have h1 := getCell_setThisArg s cid n i
          have h2 := ih (setThisArg s cid n) i (by rw [setThisArg_len]; exact h)
          exact ⟨(h2.1.trans h1.1 : _), (h2.2.trans h1.2 : _)⟩
      | inl d =>
          have h1 := getCell_allocCell_lt s d n i h
          have h2 := ih (allocCell s d n).2 i
            (by simp only [allocCell, List.length_append, List.length_cons]; omega)
          rw [show (mkCells n s ((t, Sum.inl d) :: rest)).2
              = (mkCells n (allocCell s d n).2 rest).2 from rfl]
          rw [h2.1, h2.2, h1]
          exact ⟨rfl, rfl⟩

theorem mkCells_conts (n : Nat) (es : List (Token × MF)) :
    ∀ s : St, (mkCells n s es).2.conts = s.conts := by
  induction es with
  | nil => exact fun _ => rfl
  | cons p rest ih =>
      intro s
      obtain ⟨t, e⟩ := p
      cases e with
      | inr cid => exact (ih (setThisArg s cid n)).trans rfl
      | inl d => exact (ih (allocCell s d n).2).trans rfl

theorem mkCells_fresh (n : Nat) (es : List (Token × MF)) :
    ∀ s : St, (mkCells n s es).2.fresh = s.fresh := by
  induction es with
  | nil => exact fun _ => rfl
  | cons p rest ih =>
      intro s
      obtain ⟨t, e⟩ := p
      cases e with
      | inr cid => exact (ih (setThisArg s cid n)).trans rfl
      | inl d => exact (ih (allocCell s d n).2).trans rfl

theorem mkCells_log (n : Nat) (es : List (Token × MF)) :
    ∀ s : St, (mkCells n s es).2.log = s.log := by
  induction es with
  | nil => exact fun _ => rfl
  | cons p rest ih =>
      intro s
      obtain ⟨t, e⟩ := p
      cases e with
      | inr cid => exact (ih (setThisArg s cid n)).trans rfl
      | inl d => exact (ih (allocCell s d n).2).trans rfl

/-! ## Accessors for `mkContainer` -/

theorem mkContainer_fst (s : St) (es : List (Token × MF)) :
    (mkContainer s es).1 = s.conts.length := rfl

theorem getCell_mkContainer (s : St) (es : List (Token × MF)) (i : Nat) :
    getCell (mkContainer s es).2 i = getCell (mkCells s.conts.length s es).2 i := rfl

theorem mkContainer_fresh (s : St) (es : List (Token × MF)) :
    (mkContainer s es).2.fresh = s.fresh := mkCells_fresh _ es s

theorem mkContainer_log (s : St) (es : List (Token × MF)) :
    (mkContainer s es).2.log = s.log := mkCells_log _ es s

theorem factoriesOf_mkContainer_self (s : St) (es : List (Token × MF)) :
    factoriesOf (mkContainer s es).2 s.conts.length =
      (mkCells s.conts.length s es).1 := by
  show ((((mkCells s.conts.length s es).2.conts ++ [⟨(mkCells s.conts.length s es).1⟩]) :
      List ContainerObj).getD s.conts.length ⟨[]⟩).entries
    = (mkCells s.conts.length s es).1
  rw [mkCells_conts, getD_concat, if_pos rfl]

theorem factoriesOf_mkContainer_other (s : St) (es : List (Token × MF)) (c : Nat)
    (h : c ≠ s.conts.length) :
    factoriesOf (mkContainer s es).2 c = factoriesOf s c := by
  show ((((mkCells s.conts.length s es).2.conts ++ [⟨(mkCells s.conts.length s es).1⟩]) :
      List ContainerObj).getD c ⟨[]⟩).entries = factoriesOf s c
  rw [mkCells_conts, getD_concat, if_neg h]
  rfl

theorem mkContainer_inrs_cells_len (s : St) (es : List (Token × Nat)) :
    (mkContainer s (inrs es)).2.cells.length = s.cells.length := by
  show (mkCells s.conts.length s (inrs es)).2.cells.length = s.cells.length
  rw [mkCells_inrs]
  exact setThisArgs_len s es _

/-! ## Accessors for `providesService` -/

theorem providesService_fst (s : St) (c : Nat) (fn : FactoryFn) :
    (providesService s c fn).1 = s.conts.length := rfl

theorem providesService_fresh (s : St) (c : Nat) (fn : FactoryFn) :
    (providesService s c fn).2.fresh = s.fresh :=
  (mkContainer_fresh _ _).trans rfl

theorem providesService_log (s : St) (c : Nat) (fn : FactoryFn) :
    (providesService s c fn).2.log = s.log :=
  (mkContainer_log _ _).trans rfl

theorem mkContainer_conts_len (s : St) (es : List (Token × MF)) :
    (mkContainer s es).2.conts.length = s.conts.length + 1 := by
  show ((mkCells s.conts.length s es).2.conts
      ++ ([⟨(mkCells s.conts.length s es).1⟩] : List ContainerObj)).length
    = s.conts.length + 1
  rw [mkCells_conts]
  simp

theorem providesService_conts_len (s : St) (c : Nat) (fn : FactoryFn) :
    (providesService s c fn).2.conts.length = s.conts.length + 1 :=
  (mkContainer_conts_len _ _).trans rfl

theorem providesService_cells_len (s : St) (c : Nat) (fn : FactoryFn) :
    (providesService s c fn).2.cells.length = s.cells.length + 1 := by
  show (mkContainer (allocCell s (.serviceFn fn
      (if fn.dependencies.contains fn.token then some c else none)) c).2
      (inrs (setKey (factoriesOf s c) fn.token s.cells.length))).2.cells.length
    = s.cells.length + 1
  rw [mkContainer_inrs_cells_len]
  simp [allocCell]

/-- The new container maps exactly the old tokens plus the new one, the
new token going to the freshly allocated cell. -/
theorem providesService_factories_self (s : St) (c : Nat) (fn : FactoryFn) :
    factoriesOf (providesService s c fn).2 (providesService s c fn).1 =
      setKey (factoriesOf s c) fn.token s.cells.length := by
  show factoriesOf (mkContainer (allocCell s (.serviceFn fn
      (if fn.dependencies.contains fn.token then some c else none)) c).2
      (inrs (setKey (factoriesOf s c) fn.token s.cells.length))).2
      (providesService s c fn).1
    = setKey (factoriesOf s c) fn.token s.cells.length
  rw [show (providesService s c fn).1
    = (allocCell s (.serviceFn fn
        (if fn.dependencies.contains fn.token then some c else none)) c).2.conts.length
    from rfl]
  rw [factoriesOf_mkContainer_self]
  rw [mkCells_inrs]

theorem providesService_factories_other (s : St) (c : Nat) (fn : FactoryFn) (c' : Nat)
    (h : c' ≠ s.conts.length) :
    factoriesOf (providesService s c fn).2 c' = factoriesOf s c' := by
  show factoriesOf (mkContainer (allocCell s (.serviceFn fn
      (if fn.dependencies.contains fn.token then some c else none)) c).2
      (inrs (setKey (factoriesOf s c) fn.token s.cells.length))).2 c' = factoriesOf s c'
  rw [factoriesOf_mkContainer_other]
  · rfl
  · exact h

/-- The freshly allocated cell: the `providesService` closure with the
self-dependency snapshot, and an empty cache. -/
theorem providesService_cell_new (s : St) (c : Nat) (fn : FactoryFn) :
    (getCell (providesService s c fn).2 s.cells.length).delegate =
      .serviceFn fn (if fn.dependencies.contains fn.token then some c else none) ∧
    (getCell (providesService s c fn).2 s.cells.length).memo = .undef := by
  have halloc := getCell_allocCell_new s (.serviceFn fn
      (if fn.dependencies.contains fn.token then some c else none)) c
  have h := getCell_mkCells
    ((allocCell s (.serviceFn fn
      (if fn.dependencies.contains fn.token then some c else none)) c).2.conts.length)
    (inrs (setKey (factoriesOf s c) fn.token s.cells.length))
    (allocCell s (.serviceFn fn
      (if fn.dependencies.contains fn.token then some c else none)) c).2
    s.cells.length
    (by simp [allocCell])
  refine ⟨h.1.trans ?_, h.2.trans ?_⟩
  · rw [halloc]
  · rw [halloc]

/-- Existing cells keep their delegate and cache through the
registration. -/
theorem providesService_cell_old (s : St) (c : Nat) (fn : FactoryFn) (i : Nat)
    (h : i < s.cells.length) :
    (getCell (providesService s c fn).2 i).delegate = (getCell s i).delegate ∧
    (getCell (providesService s c fn).2 i).memo = (getCell s i).memo := by
  have hlt := getCell_allocCell_lt s (.serviceFn fn
      (if fn.dependencies.contains fn.token then some c else none)) c i h
  have hm := getCell_mkCells
    ((allocCell s (.serviceFn fn
      (if fn.dependencies.contains fn.token then some c else none)) c).2.conts.length)
    (inrs (setKey (factoriesOf s c) fn.token s.cells.length))
    (allocCell s (.serviceFn fn
      (if fn.dependencies.contains fn.token then some c else none)) c).2
    i
    (by simp only [allocCell, List.length_append, List.length_cons]; omega)
  refine ⟨hm.1.trans ?_, hm.2.trans ?_⟩
  · rw [hlt]
  · rw [hlt]

/-! ## Anatomy of a successful `get` -/

theorem get_ok_elim (f : Nat) (s : St) (c : Nat) (t : Token) (v : Value) (s' : St)
    (h : get f s c t = .ok (v, s')) :
    (t = CONTAINER ∧ v = .contRef c ∧ s' = s) ∨
    (t ≠ CONTAINER ∧ ∃ cid f', f = f' + 1 ∧
      lookupTok (factoriesOf s c) t = some cid ∧
      exec f' s (.rinvoke cid) = .ok (.val v, s')) := by
  cases f with
  | zero => simp [get, exec] at h
  | succ f' =>
      unfold get at h
      by_cases ht : t = CONTAINER
      · simp only [exec, if_pos ht] at h
        simp only [Except.ok.injEq, Prod.mk.injEq] at h
        exact Or.inl ⟨ht, h.1.symm, h.2.symm⟩
      · refine Or.inr ⟨ht, ?_⟩
        simp only [exec, if_neg ht] at h
        cases hl : lookupTok (factoriesOf s c) t with
        | none => rw [hl] at h; simp at h
        | some cid =>
            rw [hl] at h
            dsimp only at h
            cases hx : exec f' s (.rinvoke cid) with
            | error e => rw [hx] at h; simp at h
            | ok pr =>
                obtain ⟨out, s₁⟩ := pr
                cases out with
                | vals vs => rw [hx] at h; simp at h
                | val w =>
                    rw [hx] at h
                    simp only [Except.ok.injEq, Prod.mk.injEq] at h
                    exact ⟨cid, f', rfl, rfl, by rw [hx, h.1, h.2]⟩

/-- Containers agree on factories across resolution steps. -/
theorem factoriesOf_exec_ok (f : Nat) (q : Req) (s : St) (o : Out) (s' : St) (c : Nat)
    (h : exec f s q = .ok (o, s')) : factoriesOf s' c = factoriesOf s c := by
  unfold factoriesOf
  rw [exec_ok_conts f q s o s' h]

/-! ## Claim C1 -/

/-- C1 (amended): for every Container `c` and key `k`, once `c.get(k)`
has resolved to a value that is not `undefined`, a second `c.get(k)`
returns the very same value and leaves the state unchanged — in
particular no factory body runs again, so the underlying factory has
executed exactly once across both calls (it ran during the first call
unless it was already cached). The non-`undefined` proviso is forced by
the cache-emptiness test `typeof memo !== "undefined"` in memoize.ts
(see C10). -/
theorem C1_get_idempotent_of_defined (f₁ f₂ : Nat) (s : St) (c : Nat) (k : Token)
    (v : Value) (s' : St)
    (h : get f₁ s c k = .ok (v, s')) (hv : v.isUndef = false) :
    get (f₂ + 2) s' c k = .ok (v, s') := by
  rcases get_ok_elim f₁ s c k v s' h with ⟨hC, hv', hs⟩ | ⟨hC, cid, f', _, hl, hx⟩
  · subst hv' hs
    simp [get, exec, if_pos hC]
  · have hmemo := invoke_ok_memo f' s cid v s' hx
    have hfac : factoriesOf s' c = factoriesOf s c := factoriesOf_exec_ok f' _ s _ s' c hx
    unfold get
    simp only [exec, if_neg hC, hfac, hl]
    simp [hmemo, hv]

def stOf : Except Err (Value × St) → St
  | .ok (_, s) => s
  | .error _ => st0

/-- The containers used in the C1 refutation: a single zero-dependency
factory (fnId 7) returning `undefined`. -/
def undefFactory : FactoryFn := ⟨"u", [], 7, fun _ _ => .undef⟩

def c1cexCont : Nat × St := providesService (mkContainer st0 []).2 (mkContainer st0 []).1 undefFactory

def c1cexS1 : St := stOf (get 3 c1cexCont.2 c1cexCont.1 "u")

def c1cexS2 : St := stOf (get 3 c1cexS1 c1cexCont.1 "u")

/-- C1 (counterexample): the claim promises that the underlying factory
executes exactly once per Container for *every* registered key. For the
factory `() => undefined` (fnId 7) registered under `"u"`, two
consecutive `get("u")` calls both succeed, yet the invocation log ends
as `[7, 7]`: the factory body executed twice, because the memoization
test `typeof memo !== "undefined"` treats the cached `undefined` as an
empty slot. -/
theorem C1_undefined_factory_runs_twice :
    get 3 c1cexCont.2 c1cexCont.1 "u" = .ok (.undef, c1cexS1) ∧
    get 3 c1cexS1 c1cexCont.1 "u" = .ok (.undef, c1cexS2) ∧
    c1cexS2.log = [7, 7] ∧ c1cexCont.2.log = [] :=
  ⟨rfl, rfl, rfl, rfl⟩

def c1wCont : Nat × St := providesValue (mkContainer st0 []).2 (mkContainer st0 []).1 "a" (.num 5)

def c1wS : St := stOf (get 3 c1wCont.2 c1wCont.1 "a")

/-- C1 (witness): the amended theorem applied to a concrete container
holding the value `5` under `"a"`. -/
theorem C1_get_idempotent_witness :
    get 3 c1wCont.2 c1wCont.1 "a" = .ok (.num 5, c1wS) ∧
    (Value.num 5).isUndef = false ∧
    get 2 c1wS c1wCont.1 "a" = .ok (.num 5, c1wS) :=
  ⟨rfl, rfl, C1_get_idempotent_of_defined 3 0 c1wCont.2 c1wCont.1 "a" (.num 5) c1wS rfl rfl⟩

/-! ## Claim C10 -/

/-- The cache-miss branch of the memoized closure: resolve the
dependencies, run the delegate, write the slot. -/
def runUncached (f : Nat) (s : St) (cid : Nat) : Except Err (Out × St) :=
  match exec f s (.rdeps (srcsOf (getCell s cid))) with
  | .ok (.vals args, s₁) =>
      .ok (.val ((fnOf (getCell s cid)).body args s₁.fresh),
        setMemo { s₁ with fresh := s₁.fresh + 1, log := s₁.log ++ [(fnOf (getCell s cid)).fnId] }
          cid ((fnOf (getCell s cid)).body args s₁.fresh))
  | .ok (.val _, _) => .error .internal
  | .error e => .error e

/-- `memoize`: hit the non-`undefined` cache or run the delegate. -/
theorem exec_rinvoke_eq (f : Nat) (s : St) (cid : Nat) :
    exec (f + 1) s (.rinvoke cid) =
      if (getCell s cid).memo.isUndef then runUncached f s cid
      else .ok (.val (getCell s cid).memo, s) := rfl

/-- C10: the memoization cache treats `undefined` as an empty slot.
Whenever an invocation of a memoized factory returns `undefined`, the
cache slot afterwards still holds `undefined` (i.e. remains empty), and
every subsequent invocation takes the cache-miss branch — it re-runs the
delegate (`runUncached`) instead of returning a cached result. Hence the
at-most-once guarantee only holds for factories whose produced service
is not `undefined` (the refutation under C1 shows such a factory running
twice). -/
theorem C10_undefined_not_cached (f : Nat) (s : St) (cid : Nat) (s' : St)
    (h : exec f s (.rinvoke cid) = .ok (.val .undef, s')) :
    (getCell s' cid).memo = .undef ∧
    ∀ g, exec (g + 1) s' (.rinvoke cid) = runUncached g s' cid := by
  have hm := invoke_ok_memo f s cid .undef s' h
  refine ⟨hm, fun g => ?_⟩
  rw [exec_rinvoke_eq, hm]
  simp [Value.isUndef]

def c10Cont : Nat × St :=
  providesService (mkContainer st0 []).2 (mkContainer st0 []).1 ⟨"w", [], 9, fun _ _ => .undef⟩

def c10S1 : St := stOf (get 3 c10Cont.2 c10Cont.1 "w")

/-- C10 (witness): the theorem applied to the container holding the
factory `() => undefined` under `"w"` (its memoized cell has id 0). -/
theorem C10_undefined_not_cached_witness :
    exec 2 c10Cont.2 (.rinvoke 0) = .ok (.val .undef, c10S1) ∧
    (getCell c10S1 0).memo = .undef ∧
    exec 3 c10S1 (.rinvoke 0) = runUncached 2 c10S1 0 :=
  ⟨rfl, (C10_undefined_not_cached 2 c10Cont.2 0 c10S1 rfl).1,
    (C10_undefined_not_cached 2 c10Cont.2 0 c10S1 rfl).2 2⟩

/-! ## Claim C6 -/

/-- C6: `get` with a token that is neither the sentinel nor a registered
key fails synchronously with the key-not-found error (never a default
value), and the error message contains the offending key verbatim. -/
theorem C6_key_not_found (f : Nat) (s : St) (c : Nat) (t : Token)
    (h1 : t ≠ CONTAINER) (h2 : lookupTok (factoriesOf s c) t = none) :
    get (f + 1) s c t = .error (.keyNotFound (keyNotFoundMsg t)) ∧
    ∃ pre post, keyNotFoundMsg t = pre ++ t ++ post := by
  constructor
  · unfold get
    simp only [exec, if_neg h1, h2]
  · exact ⟨"[Container::get] Could not find Service for Token \"", "\".", rfl⟩

def c6Cont : Nat × St := mkContainer st0 []

/-- C6 (witness): the theorem applied to the empty container and the
token `"missing"`. -/
theorem C6_key_not_found_witness :
    get 1 c6Cont.2 c6Cont.1 "missing"
      = .error (.keyNotFound (keyNotFoundMsg "missing")) ∧
    ∃ pre post, keyNotFoundMsg "missing" = pre ++ "missing" ++ post :=
  C6_key_not_found 0 c6Cont.2 c6Cont.1 "missing" (by decide) rfl

/-! ## Claim C8 -/

def c8Cont : Nat × St :=
  providesValue (mkContainer st0 []).2 (mkContainer st0 []).1 "$container" (.num 42)

/-- C8: `get` on the sentinel token returns the container itself and
leaves the state untouched — for every container and every state,
including (second conjunct) a container in which a factory has been
registered under the token `"$container"` itself: the sentinel check
precedes the factories lookup, so the registered service is shadowed and
its factory never runs. -/
theorem C8_sentinel_returns_container :
    (∀ (f : Nat) (s : St) (c : Nat),
      get (f + 1) s c CONTAINER = .ok (.contRef c, s)) ∧
    get 3 c8Cont.2 c8Cont.1 CONTAINER = .ok (.contRef c8Cont.1, c8Cont.2) := by
  constructor
  · intro f s c
    unfold get
    simp [exec, CONTAINER]
  · rfl

/-! ## Claim C7 -/

/-- C7 (amended): the `Injectable` constructor with a dependency list
whose length differs from the supplied function's declared parameter
count fails immediately — before any Container is built — with a
TypeError whose message states the two arities and the dependency list
(but, see the counterexample, not the factory's own key); when the
lengths agree, construction succeeds and the resulting factory carries
the given token and dependency list (and forwards to the supplied
function). -/
theorem C7_arity_validation (token : Token) (ds : List Token) (jf : JsFn) :
    (jf.arity ≠ ds.length →
      Injectable token (some (.deps ds)) (some jf)
        = .error (arityMsg jf.arity ds.length ds)) ∧
    (jf.arity = ds.length →
      Injectable token (some (.deps ds)) (some jf)
        = .ok ⟨token, ds, jf.fnId, jf.body⟩) := by
  constructor
  · intro h
    simp [Injectable, h]
  · intro h
    simp [Injectable, h]

def c7msg : String := arityMsg 0 1 ["dep"]

set_option maxRecDepth 8000 in
/-- C7 (counterexample): the claim asserts the arity-mismatch error
identifies the key. Constructing `Injectable("S", ["dep"], f0)` with a
zero-parameter `f0` does throw, but the thrown message does not contain
the key `"S"` anywhere (it only reports the two arities and the
dependency list), refuting the "identifying the key" part. -/
theorem C7_error_message_lacks_key :
    Injectable "S" (some (.deps ["dep"])) (some ⟨0, 5, fun _ _ => .num 0⟩)
      = .error c7msg ∧
    ¬ ("S".toList <:+: c7msg.toList) := by
  constructor
  · rfl
  · decide

/-- C7 (witness): both branches of the amended theorem at concrete
inputs. -/
theorem C7_arity_validation_witness :
    Injectable "S" (some (.deps ["a"])) (some ⟨0, 5, fun _ _ => .num 0⟩)
      = .error (arityMsg 0 1 ["a"]) ∧
    Injectable "T" (some (.deps ["a"])) (some ⟨1, 6, fun args _ => args.headD .undef⟩)
      = .ok ⟨"T", ["a"], 6, fun args _ => args.headD .undef⟩ :=
  ⟨(C7_arity_validation "S" ["a"] ⟨0, 5, fun _ _ => .num 0⟩).1 (by decide),
   (C7_arity_validation "T" ["a"] ⟨1, 6, fun args _ => args.headD .undef⟩).2 rfl⟩

/-! ## Claim C5 -/

/-- `Container.providesValue("S", [])` from the empty container. -/
def c5V : Nat × St := providesValue (mkContainer st0 []).2 (mkContainer st0 []).1 "S" (.arr [])

def c5A1 : Nat × St := appendValue c5V.2 c5V.1 "S" (.num 1)

def c5A2 : Nat × St := appendValue c5A1.2 c5A1.1 "S" (.num 2)

def c5A3 : Nat × St := appendValue c5A2.2 c5A2.1 "S" (.num 3)

/-- C5: starting from `Container.providesValue("S", [])`, three
successive `appendValue("S", 1/2/3)` calls produce containers whose
`get("S")` (run in the final heap) returns `[]`, `[1]`, `[1, 2]` and
`[1, 2, 3]` respectively: each append grows the array under the key by
exactly one element and preserves insertion order. -/
theorem C5_append_ordering :
    (∃ s, get 20 c5A3.2 c5V.1 "S" = .ok (.arr [], s)) ∧
    (∃ s, get 20 c5A3.2 c5A1.1 "S" = .ok (.arr [.num 1], s)) ∧
    (∃ s, get 20 c5A3.2 c5A2.1 "S" = .ok (.arr [.num 1, .num 2], s)) ∧
    (∃ s, get 20 c5A3.2 c5A3.1 "S" = .ok (.arr [.num 1, .num 2, .num 3], s)) :=
  ⟨⟨_, rfl⟩, ⟨_, rfl⟩, ⟨_, rfl⟩, ⟨_, rfl⟩⟩

/-! ## Claim C2 -/

/-- C2: self-override chaining. Let `fOld` be a zero-dependency factory
for key `k` and `fNew` a factory for the same key whose dependency list
is `[k]`. For every starting state and container,
`c.provides(fOld).provides(fNew).get(k)` terminates (at any fuel of the
shape `f + 6`, i.e. without unbounded recursion) and returns
`fNew (fOld ())` — the self-dependency argument is the value produced by
`fOld`, i.e. resolved against the registry as it stood immediately
before the `fNew` registration (the snapshot container `c₁`), not
against the registry being built — and each of the two factory bodies
runs exactly once, in the order old-then-new. -/
theorem C2_self_override
    (s : St) (c : Nat) (k : Token) (fOld fNew : FactoryFn) (f : Nat)
    (c₁ : Nat) (s₁ : St) (c₂ : Nat) (s₂ : St)
    (hk : k ≠ CONTAINER)
    (hOldTok : fOld.token = k) (hOldDeps : fOld.dependencies = [])
    (hNewTok : fNew.token = k) (hNewDeps : fNew.dependencies = [k])
    (hs₁ : providesService s c fOld = (c₁, s₁))
    (hs₂ : providesService s₁ c₁ fNew = (c₂, s₂)) :
    ∃ s₃,
      get (f + 6) s₂ c₂ k
        = .ok (fNew.body [fOld.body [] s.fresh] (s.fresh + 1), s₃) ∧
      s₃.log = s.log ++ [fOld.fnId, fNew.fnId] := by
  have hss₁ : s₁ = (providesService s c fOld).2 := (congrArg Prod.snd hs₁).symm
  have hss₂ : s₂ = (providesService s₁ c₁ fNew).2 := (congrArg Prod.snd hs₂).symm
  have hcc₁ : c₁ = (providesService s c fOld).1 := (congrArg Prod.fst hs₁).symm
  have hcc₂ : c₂ = (providesService s₁ c₁ fNew).1 := (congrArg Prod.fst hs₂).symm
  have hc₁ : c₁ = s.conts.length := hcc₁.trans (providesService_fst s c fOld)
  have hlen₁ : s₁.cells.length = s.cells.length + 1 := by
    rw [hss₁]; exact providesService_cells_len s c fOld
  have hconts₁ : s₁.conts.length = s.conts.length + 1 := by
    rw [hss₁]; exact providesService_conts_len s c fOld
  have hfr : s₂.fresh = s.fresh := by
    rw [hss₂, providesService_fresh, hss₁, providesService_fresh]
  have hlog : s₂.log = s.log := by
    rw [hss₂, providesService_log, hss₁, providesService_log]
  -- factories of the final container: the fNew cell wins under k
  have hfacs₂ : factoriesOf s₂ c₂ = setKey (factoriesOf s₁ c₁) k s₁.cells.length := by
    rw [hss₂, hcc₂, providesService_factories_self, hNewTok]
  have hlookNew : lookupTok (factoriesOf s₂ c₂) k = some s₁.cells.length := by
    rw [hfacs₂]; exact lookupTok_setKey_self _ _ _
  -- factories of the snapshot container, unchanged by the second
  -- registration: the fOld cell under k
  have hfacs₁ : factoriesOf s₂ c₁ = setKey (factoriesOf s c) k s.cells.length := by
    rw [hss₂, providesService_factories_other s₁ c₁ fNew c₁ (by omega)]
    rw [hss₁, hcc₁, providesService_factories_self, hOldTok]
  have hlookOld : lookupTok (factoriesOf s₂ c₁) k = some s.cells.length := by
    rw [hfacs₁]; exact lookupTok_setKey_self _ _ _
  -- the fNew cell: serviceFn with the snapshot of c₁, empty cache
  have hdelNew : (getCell s₂ s₁.cells.length).delegate = .serviceFn fNew (some c₁) := by
    rw [hss₂]
    refine (providesService_cell_new s₁ c₁ fNew).1.trans ?_
    rw [hNewDeps, hNewTok]
    simp
  have hmemoNew : (getCell s₂ s₁.cells.length).memo = .undef := by
    rw [hss₂]; exact (providesService_cell_new s₁ c₁ fNew).2
  -- the fOld cell: serviceFn with no snapshot, empty cache, preserved
  -- through the second registration
  have hdelOld : (getCell s₂ s.cells.length).delegate = .serviceFn fOld none := by
    rw [hss₂]
    refine (providesService_cell_old s₁ c₁ fNew s.cells.length (by omega)).1.trans ?_
    rw [hss₁]
    refine (providesService_cell_new s c fOld).1.trans ?_
    rw [hOldDeps]
    simp
  have hmemoOld : (getCell s₂ s.cells.length).memo = .undef := by
    rw [hss₂]
    refine (providesService_cell_old s₁ c₁ fNew s.cells.length (by omega)).2.trans ?_
    rw [hss₁]
    exact (providesService_cell_new s c fOld).2
  -- resolution plans and bodies of the two cells
  have hsrcNew : srcsOf (getCell s₂ s₁.cells.length) = [.fromCont c₁ k] := by
    simp only [srcsOf, hdelNew]
    simp [serviceSrcs, hNewDeps, hNewTok]
  have hsrcOld : srcsOf (getCell s₂ s.cells.length) = [] := by
    simp only [srcsOf, hdelOld]
    simp [serviceSrcs, hOldDeps]
  have hfnNew : fnOf (getCell s₂ s₁.cells.length) = fNew := by
    simp only [fnOf, hdelNew]
  have hfnOld : fnOf (getCell s₂ s.cells.length) = fOld := by
    simp only [fnOf, hdelOld]
  -- run the resolution
  simp only [get, exec, if_neg hk, hlookNew, hlookOld, hsrcNew, hsrcOld, hfnNew, hfnOld,
    hmemoNew, hmemoOld, Value.isUndef, if_true, setMemo, hfr, hlog]
  refine ⟨_, rfl, ?_⟩
  simp

def c2fOld : FactoryFn := ⟨"X", [], 31, fun _ _ => .num 10⟩

def c2fNew : FactoryFn :=
  ⟨"X", ["X"], 32, fun args _ => match args.headD .undef with | .num n => .num (n + 1) | _ => .undef⟩

def c2wA : Nat × St := providesService (mkContainer st0 []).2 (mkContainer st0 []).1 c2fOld

def c2wB : Nat × St := providesService c2wA.2 c2wA.1 c2fNew

/-- C2 (witness): the theorem applied to `fOld = () => 10` and
`fNew = (x) => x + 1` under key `"X"`: the final `get("X")` yields `11`
and the log records one run of each factory, old first. -/
theorem C2_self_override_witness :
    ∃ s₃, get 6 c2wB.2 c2wB.1 "X" = .ok (.num 11, s₃) ∧ s₃.log = [31, 32] := by
  obtain ⟨s₃, h1, h2⟩ :=
    C2_self_override (mkContainer st0 []).2 (mkContainer st0 []).1 "X" c2fOld c2fNew 0
      c2wA.1 c2wA.2 c2wB.1 c2wB.2 (by decide) rfl rfl rfl rfl rfl rfl
  exact ⟨s₃, h1, h2⟩

/-! ## Overlay lookup lemmas -/

theorem lookupTok_overlay_not_mem (base news : List (Token × Nat)) (t : Token)
    (h : t ∉ news.map Prod.fst) :
    lookupTok (overlay base news) t = lookupTok base t := by
  induction news generalizing base with
  | nil => rfl
  | cons q rest ih =>
      simp only [List.map_cons, List.mem_cons] at h
      push_neg at h
      rw [show overlay base (q :: rest) = overlay (setKey base q.1 q.2) rest from rfl]
      rw [ih (setKey base q.1 q.2) h.2]
      exact lookupTok_setKey_ne _ _ _ _ (fun hq => h.1 hq.symm)

/-- On key collision the later (incoming) binding wins. -/
theorem lookupTok_overlay_mem (base news : List (Token × Nat)) (t : Token) (v : Nat)
    (hnd : (news.map Prod.fst).Nodup) (h : lookupTok news t = some v) :
    lookupTok (overlay base news) t = some v := by
  induction news generalizing base with
  | nil => simp [lookupTok] at h
  | cons q rest ih =>
      simp only [List.map_cons, List.nodup_cons] at hnd
      rw [show overlay base (q :: rest) = overlay (setKey base q.1 q.2) rest from rfl]
      by_cases hq : q.1 = t
      · rw [lookupTok, if_pos hq] at h
        injection h with h
        subst h hq
        rw [lookupTok_overlay_not_mem _ _ _ hnd.1]
        exact lookupTok_setKey_self _ _ _
      · rw [lookupTok, if_neg hq] at h
        exact ih (setKey base q.1 q.2) hnd.2 h

/-! ## PartialContainer binding lemmas -/

theorem mkSib_keys (inj : List (Token × FactoryFn)) :
    ∀ b : Nat, (mkSib b inj).map Prod.fst = inj.map Prod.fst := by
  induction inj with
  | nil => intro b; rfl
  | cons q rest ih =>
      intro b
      obtain ⟨t, g⟩ := q
      simp only [mkSib, List.map_cons, ih (b + 1)]

theorem mkSib_lookup (X : Token) (fX : FactoryFn) :
    ∀ (inj : List (Token × FactoryFn)) (b : Nat), lookupTok inj X = some fX →
      ∃ i, i < inj.length ∧ lookupTok (mkSib b inj) X = some (b + i) ∧
        inj[i]? = some (X, fX) := by
  intro inj
  induction inj with
  | nil =>
      intro b h
      simp [lookupTok] at h
  | cons q rest ih =>
      intro b h
      obtain ⟨t, g⟩ := q
      by_cases ht : t = X
      · subst ht
        rw [lookupTok, if_pos rfl] at h
        injection h with h
        subst h
        exact ⟨0, by simp, by simp [mkSib, lookupTok], by simp⟩
      · rw [lookupTok, if_neg ht] at h
        obtain ⟨i, hi, hl, hg⟩ := ih (b + 1) h
        refine ⟨i + 1, by simpa using Nat.succ_lt_succ hi, ?_, by simpa using hg⟩
        rw [mkSib, lookupTok, if_neg ht, hl]
        congr 1
        omega

/-- The cell produced by `getFactories` for an injectable `(X, fX)`:
fresh, owned by the parent, closing over the parent container and the
complete sibling map. -/
theorem getFactories_spec (s : St) (p : PartialContainer) (parent : Nat)
    (X : Token) (fX : FactoryFn) (hfind : lookupTok p.injectables X = some fX) :
    ∃ cid, lookupTok (getFactories s p parent).1 X = some cid ∧
      s.cells.length ≤ cid ∧ cid < (getFactories s p parent).2.cells.length ∧
      getCell (getFactories s p parent).2 cid
        = ⟨.boundFn X fX parent (getFactories s p parent).1, parent, .undef⟩ := by
  obtain ⟨i, hi, hl, hg⟩ := mkSib_lookup X fX p.injectables s.cells.length hfind
  refine ⟨s.cells.length + i, hl, by omega, ?_, ?_⟩
  · show s.cells.length + i
      < (s.cells ++ p.injectables.map
          (fun q => (⟨.boundFn q.1 q.2 parent (mkSib s.cells.length p.injectables),
            parent, .undef⟩ : Cell))).length
    simp
    omega
  · show (s.cells ++ p.injectables.map
        (fun q => (⟨.boundFn q.1 q.2 parent (mkSib s.cells.length p.injectables),
          parent, .undef⟩ : Cell))).getD (s.cells.length + i) dummyCell
      = ⟨.boundFn X fX parent (getFactories s p parent).1, parent, .undef⟩
    rw [List.getD_eq_getElem?_getD, List.getElem?_append_right (by omega)]
    rw [show s.cells.length + i - s.cells.length = i by omega]
    rw [List.getElem?_map, hg]
    rfl

theorem getFactories_conts (s : St) (p : PartialContainer) (parent : Nat) :
    (getFactories s p parent).2.conts = s.conts := rfl

theorem providesPartialC_fst (s : St) (c : Nat) (p : PartialContainer) :
    (providesPartialC s c p).1 = s.conts.length := rfl

theorem providesPartialC_fresh (s : St) (c : Nat) (p : PartialContainer) :
    (providesPartialC s c p).2.fresh = s.fresh :=
  (mkContainer_fresh _ _).trans rfl

theorem providesPartialC_log (s : St) (c : Nat) (p : PartialContainer) :
    (providesPartialC s c p).2.log = s.log :=
  (mkContainer_log _ _).trans rfl

/-- The merged container maps the old keys overlaid with the bound
partial entries (the incoming binding wins on collision). -/
theorem providesPartialC_facs_self (s : St) (c : Nat) (p : PartialContainer) :
    factoriesOf (providesPartialC s c p).2 (providesPartialC s c p).1
      = overlay (factoriesOf s c) (getFactories s p c).1 := by
  show factoriesOf (mkContainer (getFactories s p c).2
      (inrs (overlay (factoriesOf s c) (getFactories s p c).1))).2
      (providesPartialC s c p).1
    = overlay (factoriesOf s c) (getFactories s p c).1
  rw [show (providesPartialC s c p).1 = (getFactories s p c).2.conts.length from rfl]
  rw [factoriesOf_mkContainer_self, mkCells_inrs]

theorem providesPartialC_facs_other (s : St) (c : Nat) (p : PartialContainer) (c' : Nat)
    (h : c' ≠ s.conts.length) :
    factoriesOf (providesPartialC s c p).2 c' = factoriesOf s c' := by
  show factoriesOf (mkContainer (getFactories s p c).2
      (inrs (overlay (factoriesOf s c) (getFactories s p c).1))).2 c' = factoriesOf s c'
  rw [factoriesOf_mkContainer_other]
  · rfl
  · exact h

theorem providesPartialC_cell (s : St) (c : Nat) (p : PartialContainer) (cid : Nat) :
    (getCell (providesPartialC s c p).2 cid).delegate
      = (getCell (getFactories s p c).2 cid).delegate ∧
    (getCell (providesPartialC s c p).2 cid).memo
      = (getCell (getFactories s p c).2 cid).memo := by
  show (getCell (mkContainer (getFactories s p c).2
      (inrs (overlay (factoriesOf s c) (getFactories s p c).1))).2 cid).delegate = _ ∧
    (getCell (mkContainer (getFactories s p c).2
      (inrs (overlay (factoriesOf s c) (getFactories s p c).1))).2 cid).memo = _
  rw [getCell_mkContainer, mkCells_inrs]
  exact getCell_setThisArgs _ _ _ cid

theorem exec_of_get_ok (f : Nat) (s : St) (c : Nat) (t : Token) (v : Value) (s' : St)
    (h : get f s c t = .ok (v, s')) : exec f s (.rget c t) = .ok (.val v, s') := by
  unfold get at h
  cases hx : exec f s (.rget c t) with
  | error e => rw [hx] at h; simp at h
  | ok pr =>
      obtain ⟨out, s₁⟩ := pr
      cases out with
      | vals vs => rw [hx] at h; simp at h
      | val w =>
          rw [hx] at h
          simp only [Except.ok.injEq, Prod.mk.injEq] at h
          obtain ⟨rfl, rfl⟩ := h
          rfl

/-! ## Claim C3 -/

/-- C3: merge precedence with a PartialContainer. Let the Container `c`
define `X` and the PartialContainer `p` also define `X` through a
factory `fX` whose dependency list is `[X]`. In the merged container
`m = c.provides(p)`, `get(X)` resolves through `p`'s definition — the
incoming binding wins the collision — and the self-dependency argument
position receives exactly the value that container `c` (the registry as
bound before the merge, whose own binding for `X` the merge did not
touch) produces for `X`. -/
theorem C3_merge_precedence
    (s : St) (c : Nat) (p : PartialContainer) (X : Token) (fX : FactoryFn) (f : Nat)
    (m : Nat) (sM : St) (vOld : Value) (s₂ : St)
    (hX : X ≠ CONTAINER)
    (hnd : (p.injectables.map Prod.fst).Nodup)
    (hfind : lookupTok p.injectables X = some fX)
    (hdeps : fX.dependencies = [X])
    (hpp : providesPartialC s c p = (m, sM))
    (hOld : get (f + 1) sM c X = .ok (vOld, s₂)) :
    ∃ s₃, get (f + 4) sM m X = .ok (fX.body [vOld] s₂.fresh, s₃) ∧
      s₃.log = s₂.log ++ [fX.fnId] := by
  have hsM : sM = (providesPartialC s c p).2 := (congrArg Prod.snd hpp).symm
  have hmm : m = (providesPartialC s c p).1 := (congrArg Prod.fst hpp).symm
  obtain ⟨cid, hsib, hge, hlt, hcell⟩ := getFactories_spec s p c X fX hfind
  have hndsib : ((getFactories s p c).1.map Prod.fst).Nodup := by
    show ((mkSib s.cells.length p.injectables).map Prod.fst).Nodup
    rw [mkSib_keys]
    exact hnd
  have hlook : lookupTok (factoriesOf sM m) X = some cid := by
    rw [hsM, hmm, providesPartialC_facs_self]
    exact lookupTok_overlay_mem _ _ _ _ hndsib hsib
  have hdel : (getCell sM cid).delegate = .boundFn X fX c (getFactories s p c).1 := by
    rw [hsM]
    exact (providesPartialC_cell s c p cid).1.trans (by rw [hcell])
  have hmemo : (getCell sM cid).memo = .undef := by
    rw [hsM]
    exact (providesPartialC_cell s c p cid).2.trans (by rw [hcell])
  have hsrc : srcsOf (getCell sM cid) = [.fromCont c X] := by
    simp only [srcsOf, hdel]
    simp [boundSrcs, hdeps]
  have hfn : fnOf (getCell sM cid) = fX := by
    simp only [fnOf, hdel]
  have hexec : exec (f + 1) sM (.rget c X) = .ok (.val vOld, s₂) :=
    exec_of_get_ok _ _ _ _ _ _ hOld
  generalize hg : f + 1 = g at hexec
  have hf4 : f + 4 = g + 3 := by omega
  rw [hf4]
  simp only [get, exec, if_neg hX, hlook, hmemo, hsrc, hfn, Value.isUndef, if_true, hexec,
    setMemo]
  refine ⟨_, rfl, ?_⟩
  simp

def c3fX : FactoryFn :=
  ⟨"X", ["X"], 41, fun args _ => match args.headD .undef with | .num n => .num (n + 1) | _ => .undef⟩

def c3C : Nat × St := providesValue (mkContainer st0 []).2 (mkContainer st0 []).1 "X" (.num 1)

def c3p : PartialContainer := PartialContainer.empty.provides c3fX

def c3M : Nat × St := providesPartialC c3C.2 c3C.1 c3p

def c3S2 : St := stOf (get 3 c3M.2 c3C.1 "X")

/-- C3 (witness): merging a partial container whose `"X"` factory is
`(x) => x + 1` into a container with `"X" = 1` yields `get("X") = 2`. -/
theorem C3_merge_precedence_witness :
    ∃ s₃, get 6 c3M.2 c3M.1 "X" = .ok (.num 2, s₃) ∧ s₃.log = [0, 41] := by
  obtain ⟨s₃, h1, h2⟩ :=
    C3_merge_precedence c3C.2 c3C.1 c3p "X" c3fX 2 c3M.1 c3M.2 (.num 1) c3S2
      (by decide) (by decide) rfl rfl rfl rfl
  exact ⟨s₃, h1, h2⟩

/-! ## Lemmas about `copy` with a single scoped token -/

theorem Cell_eq_of_fields (c : Cell) (d : Delegate) (o : Nat) (m : Value)
    (h1 : c.delegate = d) (h2 : c.thisArg = o) (h3 : c.memo = m) : c = ⟨d, o, m⟩ := by
  cases c
  simp_all

theorem setKey_cons_self {α : Type} (t : Token) (w v : α) (rest : List (Token × α)) :
    setKey ((t, w) :: rest) t v = (t, v) :: rest := by
  simp [setKey]

theorem setKey_cons_ne {α : Type} (k t : Token) (w v : α) (rest : List (Token × α))
    (h : k ≠ t) : setKey ((k, w) :: rest) t v = (k, w) :: setKey rest t v := by
  simp [setKey, h]

theorem inrs_cons (t : Token) (cid : Nat) (L : List (Token × Nat)) :
    inrs ((t, cid) :: L) = (t, Sum.inr cid) :: inrs L := rfl

theorem mkCells_cons_inr (n : Nat) (s : St) (t : Token) (cid : Nat)
    (rest : List (Token × MF)) :
    mkCells n s ((t, .inr cid) :: rest)
      = ((t, cid) :: (mkCells n (setThisArg s cid n) rest).1,
         (mkCells n (setThisArg s cid n) rest).2) := rfl

theorem mkCells_cons_inl (n : Nat) (s : St) (t : Token) (d : Delegate)
    (rest : List (Token × MF)) :
    mkCells n s ((t, .inl d) :: rest)
      = ((t, s.cells.length) :: (mkCells n (allocCell s d n).2 rest).1,
         (mkCells n (allocCell s d n).2 rest).2) := rfl

/-- The constructor loop on a factories object with exactly one scoped
(un-memoized) entry rebinds the scoped token to the freshly allocated
cell and keeps every other binding. -/
theorem mkCells_fst_setKey_inl (X : Token) (d : Delegate) (n : Nat) :
    ∀ (L : List (Token × Nat)) (s : St),
      (mkCells n s (setKey (inrs L) X (.inl d))).1 = setKey L X s.cells.length := by
  intro L
  induction L with
  | nil => intro s; rfl
  | cons q L' ih =>
      intro s
      obtain ⟨t, cid₀⟩ := q
      rw [inrs_cons]
      by_cases ht : t = X
      · subst ht
        rw [setKey_cons_self, setKey_cons_self, mkCells_cons_inl, mkCells_inrs]
      · rw [setKey_cons_ne _ _ _ _ _ ht, setKey_cons_ne _ _ _ _ _ ht, mkCells_cons_inr]
        rw [show ((t, cid₀) :: (mkCells n (setThisArg s cid₀ n)
              (setKey (inrs L') X (Sum.inl d))).1,
            (mkCells n (setThisArg s cid₀ n) (setKey (inrs L') X (Sum.inl d))).2).1
          = (t, cid₀) :: (mkCells n (setThisArg s cid₀ n)
              (setKey (inrs L') X (Sum.inl d))).1 from rfl]
        rw [ih (setThisArg s cid₀ n), setThisArg_len]

theorem mkCells_setKey_inl_cells_len (X : Token) (d : Delegate) (n : Nat) :
    ∀ (L : List (Token × Nat)) (s : St),
      (mkCells n s (setKey (inrs L) X (.inl d))).2.cells.length = s.cells.length + 1 := by
  intro L
  induction L with
  | nil =>
      intro s
      show (allocCell s d n).2.cells.length = s.cells.length + 1
      simp [allocCell]
  | cons q L' ih =>
      intro s
      obtain ⟨t, cid₀⟩ := q
      rw [inrs_cons]
      by_cases ht : t = X
      · subst ht
        rw [setKey_cons_self, mkCells_cons_inl]
        show (mkCells n (allocCell s d n).2 (inrs L')).2.cells.length = s.cells.length + 1
        rw [mkCells_inrs]
        show (setThisArgs (allocCell s d n).2 L' n).cells.length = s.cells.length + 1
        rw [setThisArgs_len]
        simp [allocCell]
      · rw [setKey_cons_ne _ _ _ _ _ ht, mkCells_cons_inr]
        show (mkCells n (setThisArg s cid₀ n)
            (setKey (inrs L') X (Sum.inl d))).2.cells.length = s.cells.length + 1
        rw [ih (setThisArg s cid₀ n), setThisArg_len]

/-- The scoped token's new cell: the original delegate re-memoized with
an empty cache, owned by the new container. -/
theorem mkCells_setKey_inl_cell_new (X : Token) (d : Delegate) (n : Nat) :
    ∀ (L : List (Token × Nat)) (s : St),
      getCell (mkCells n s (setKey (inrs L) X (.inl d))).2 s.cells.length
        = ⟨d, n, .undef⟩ := by
  intro L
  induction L with
  | nil =>
      intro s
      show getCell (allocCell s d n).2 s.cells.length = ⟨d, n, .undef⟩
      exact getCell_allocCell_new s d n
  | cons q L' ih =>
      intro s
      obtain ⟨t, cid₀⟩ := q
      rw [inrs_cons]
      by_cases ht : t = X
      · subst ht
        rw [setKey_cons_self, mkCells_cons_inl]
        show getCell (mkCells n (allocCell s d n).2 (inrs L')).2 s.cells.length = ⟨d, n, .undef⟩
        rw [mkCells_inrs]
        show getCell (setThisArgs (allocCell s d n).2 L' n) s.cells.length = ⟨d, n, .undef⟩
        have hbase := getCell_allocCell_new s d n
        have hpres := getCell_setThisArgs (allocCell s d n).2 L' n s.cells.length
        refine Cell_eq_of_fields _ _ _ _ ?_ ?_ ?_
        · rw [hpres.1, hbase]
        · exact getCell_setThisArgs_thisArg_stable _ L' n _ (by rw [hbase])
        · rw [hpres.2, hbase]
      · rw [setKey_cons_ne _ _ _ _ _ ht, mkCells_cons_inr]
        show getCell (mkCells n (setThisArg s cid₀ n) (setKey (inrs L') X (Sum.inl d))).2
            s.cells.length = ⟨d, n, .undef⟩
        rw [show s.cells.length = (setThisArg s cid₀ n).cells.length by rw [setThisArg_len]]
        exact ih (setThisArg s cid₀ n)

/-! ## Accessors for `copy` with one scoped token -/

theorem copy_fst (s : St) (a : Nat) (sc : List Token) :
    (copy s a sc).1 = s.conts.length := rfl

theorem copy_fresh (s : St) (a : Nat) (sc : List Token) :
    (copy s a sc).2.fresh = s.fresh := mkContainer_fresh _ _

theorem copy_log (s : St) (a : Nat) (sc : List Token) :
    (copy s a sc).2.log = s.log := mkContainer_log _ _

theorem copy_facs_other (s : St) (a : Nat) (sc : List Token) (c' : Nat)
    (h : c' ≠ s.conts.length) : factoriesOf (copy s a sc).2 c' = factoriesOf s c' :=
  factoriesOf_mkContainer_other _ _ _ h

theorem copy_cell_old (s : St) (a : Nat) (sc : List Token) (i : Nat) (h : i < s.cells.length) :
    (getCell (copy s a sc).2 i).delegate = (getCell s i).delegate ∧
    (getCell (copy s a sc).2 i).memo = (getCell s i).memo := by
  simp only [copy]
  rw [getCell_mkContainer]
  exact getCell_mkCells _ _ s i h

theorem copy_single_es (s : St) (a : Nat) (X : Token) (cid : Nat)
    (hlook : lookupTok (factoriesOf s a) X = some cid) :
    copy s a [X] = mkContainer s (setKey (inrs (factoriesOf s a)) X
      (.inl (getCell s cid).delegate)) := by
  unfold copy
  rw [show ([X].foldl (fun acc tok =>
      match lookupTok (factoriesOf s a) tok with
      | some cid => setKey acc tok (Sum.inl (getCell s cid).delegate)
      | none => acc) (inrs (factoriesOf s a)))
    = (match lookupTok (factoriesOf s a) X with
      | some cid => setKey (inrs (factoriesOf s a)) X (Sum.inl (getCell s cid).delegate)
      | none => inrs (factoriesOf s a)) from rfl]
  rw [hlook]

theorem copy_single_facs_self (s : St) (a : Nat) (X : Token) (cid : Nat)
    (hlook : lookupTok (factoriesOf s a) X = some cid) :
    factoriesOf (copy s a [X]).2 (copy s a [X]).1
      = setKey (factoriesOf s a) X s.cells.length := by
  rw [copy_single_es s a X cid hlook, mkContainer_fst,
    factoriesOf_mkContainer_self, mkCells_fst_setKey_inl]

theorem copy_single_cell_new (s : St) (a : Nat) (X : Token) (cid : Nat)
    (hlook : lookupTok (factoriesOf s a) X = some cid) :
    getCell (copy s a [X]).2 s.cells.length
      = ⟨(getCell s cid).delegate, s.conts.length, .undef⟩ := by
  rw [copy_single_es s a X cid hlook, getCell_mkContainer]
  exact mkCells_setKey_inl_cell_new X _ _ _ s

theorem copy_single_cells_len (s : St) (a : Nat) (X : Token) (cid : Nat)
    (hlook : lookupTok (factoriesOf s a) X = some cid) :
    (copy s a [X]).2.cells.length = s.cells.length + 1 := by
  rw [copy_single_es s a X cid hlook]
  exact mkCells_setKey_inl_cells_len X _ _ _ s

/-- Resolving a zero-dependency `providesService` factory: the body runs
on the current fresh nonce, the nonce advances, the run is logged, the
cache fills. -/
theorem get_zero_dep (f : Nat) (s : St) (c : Nat) (t : Token) (cid : Nat) (fn : FactoryFn)
    (ht : t ≠ CONTAINER)
    (hl : lookupTok (factoriesOf s c) t = some cid)
    (hdel : (getCell s cid).delegate = .serviceFn fn none)
    (hmemo : (getCell s cid).memo = .undef)
    (hdeps : fn.dependencies = []) :
    get (f + 2) s c t = .ok (fn.body [] s.fresh,
      setMemo { s with fresh := s.fresh + 1, log := s.log ++ [fn.fnId] } cid
        (fn.body [] s.fresh)) := by
  have hsrc : srcsOf (getCell s cid) = [] := by
    simp only [srcsOf, hdel]
    simp [serviceSrcs, hdeps]
  have hfn : fnOf (getCell s cid) = fn := by
    simp only [fnOf, hdel]
  simp only [get, exec, if_neg ht, hl, hmemo, hsrc, hfn, Value.isUndef, if_true]

/-! ## Claim C4 -/

/-- C4: scoped copy isolation. Let `a` hold under the scoped key `X` an
unresolved zero-dependency factory `fn`, and let `b = a.copy([X])`.
Then (X-part) resolving `X` first in `a` and then in `b` runs the
factory body once in each container — twice in total, as witnessed by
the log gaining `fn.fnId` twice — on two distinct fresh nonces, so that
an allocating factory (one whose result differs on different nonces,
e.g. `() => new Foo()`) yields distinct instances; and (Y-parts) every
other key `Y` is shared by reference: `b` maps `Y` to the identical
memoized cell as `a`, and once `a.get(Y)` has produced a (defined)
value, `b.get(Y)` returns that identical cached value with no further
factory execution. -/
theorem C4_scoped_copy_isolation
    (s : St) (a : Nat) (X : Token) (cid : Nat) (fn : FactoryFn) (f g : Nat)
    (b : Nat) (s₁ : St)
    (hX : X ≠ CONTAINER)
    (hlook : lookupTok (factoriesOf s a) X = some cid)
    (hcid : cid < s.cells.length)
    (hdel : (getCell s cid).delegate = .serviceFn fn none)
    (hmemo : (getCell s cid).memo = .undef)
    (hdeps : fn.dependencies = [])
    (hcopy : copy s a [X] = (b, s₁)) :
    (∃ s₂ s₃,
      get (f + 2) s₁ a X = .ok (fn.body [] s.fresh, s₂) ∧
      get (g + 2) s₂ b X = .ok (fn.body [] (s.fresh + 1), s₃) ∧
      s₃.log = s.log ++ [fn.fnId, fn.fnId] ∧
      ((∀ n m : Nat, n ≠ m → fn.body [] n ≠ fn.body [] m) →
        fn.body [] s.fresh ≠ fn.body [] (s.fresh + 1)))
    ∧
    (∀ (Y : Token) (cidY : Nat), Y ≠ X → lookupTok (factoriesOf s a) Y = some cidY →
      lookupTok (factoriesOf s₁ b) Y = some cidY)
    ∧
    (∀ (Y : Token) (h' g' : Nat) (v : Value) (sY : St),
      Y ≠ X → Y ≠ CONTAINER →
      get h' s₁ a Y = .ok (v, sY) → v.isUndef = false →
      get (g' + 2) sY b Y = .ok (v, sY)) := by
  have hs₁ : s₁ = (copy s a [X]).2 := (congrArg Prod.snd hcopy).symm
  have hbb : b = (copy s a [X]).1 := (congrArg Prod.fst hcopy).symm
  have hb : b = s.conts.length := hbb.trans (copy_fst s a [X])
  have ha : a < s.conts.length := by
    by_contra hna
    have hempty : factoriesOf s a = [] := by
      unfold factoriesOf
      rw [List.getD_eq_getElem?_getD, List.getElem?_eq_none (by omega)]
      rfl
    rw [hempty] at hlook
    simp [lookupTok] at hlook
  have hfacs1a : factoriesOf s₁ a = factoriesOf s a := by
    rw [hs₁]
    exact copy_facs_other s a [X] a (by omega)
  have hfacs1b : factoriesOf s₁ b = setKey (factoriesOf s a) X s.cells.length := by
    rw [hs₁, hbb]
    exact copy_single_facs_self s a X cid hlook
  have hfr1 : s₁.fresh = s.fresh := by rw [hs₁]; exact copy_fresh s a [X]
  have hlog1 : s₁.log = s.log := by rw [hs₁]; exact copy_log s a [X]
  refine ⟨?_, ?_, ?_⟩
  · -- X-part
    have hcell1del : (getCell s₁ cid).delegate = .serviceFn fn none := by
      rw [hs₁]
      exact (copy_cell_old s a [X] cid hcid).1.trans hdel
    have hcell1memo : (getCell s₁ cid).memo = .undef := by
      rw [hs₁]
      exact (copy_cell_old s a [X] cid hcid).2.trans hmemo
    have hlook1a : lookupTok (factoriesOf s₁ a) X = some cid := by
      rw [hfacs1a]
      exact hlook
    have hget1 := get_zero_dep f s₁ a X cid fn hX hlook1a hcell1del hcell1memo hdeps
    rw [hfr1, hlog1] at hget1
    set S2 := setMemo { s₁ with fresh := s.fresh + 1, log := s.log ++ [fn.fnId] } cid
      (fn.body [] s.fresh) with hS2
    have hfrS2 : S2.fresh = s.fresh + 1 := by rw [hS2]; rfl
    have hlogS2 : S2.log = s.log ++ [fn.fnId] := by rw [hS2]; rfl
    have hcontsS2 : S2.conts = s₁.conts := by rw [hS2]; rfl
    have hnew : getCell s₁ s.cells.length
        = ⟨(getCell s cid).delegate, s.conts.length, .undef⟩ := by
      rw [hs₁]
      exact copy_single_cell_new s a X cid hlook
    have hgetS2 : getCell S2 s.cells.length = getCell s₁ s.cells.length := by
      rw [hS2, getCell_setMemo_eq, if_neg (fun hh => by omega)]
      rfl
    have hnewdel : (getCell S2 s.cells.length).delegate = .serviceFn fn none := by
      rw [hgetS2, hnew]
      exact hdel
    have hnewmemo : (getCell S2 s.cells.length).memo = .undef := by
      rw [hgetS2, hnew]
    have hlookS2b : lookupTok (factoriesOf S2 b) X = some s.cells.length := by
      have hfb : factoriesOf S2 b = factoriesOf s₁ b := by
        unfold factoriesOf
        rw [hcontsS2]
      rw [hfb, hfacs1b]
      exact lookupTok_setKey_self _ _ _
    have hget2 := get_zero_dep g S2 b X s.cells.length fn hX hlookS2b hnewdel hnewmemo hdeps
    rw [hfrS2, hlogS2] at hget2
    refine ⟨S2, _, hget1, hget2, ?_, fun halloc => halloc _ _ (by omega)⟩
    simp [setMemo]
  · -- Y-part: shared cells
    intro Y cidY hYX hlookY
    rw [hfacs1b, lookupTok_setKey_ne _ _ _ _ (Ne.symm hYX)]
    exact hlookY
  · -- Y-part: identical cached instance
    intro Y h' g' v sY hYX hYC hgetY hv
    rcases get_ok_elim h' s₁ a Y v sY hgetY with ⟨hC, _, _⟩ | ⟨_, cidY, f', _, hlookY, hx⟩
    · exact absurd hC hYC
    · have hmemoY := invoke_ok_memo f' s₁ cidY v sY hx
      have hfacsY : factoriesOf sY b = factoriesOf s₁ b :=
        factoriesOf_exec_ok f' _ s₁ _ sY b hx
      have hlookYb : lookupTok (factoriesOf sY b) Y = some cidY := by
        rw [hfacsY, hfacs1b, lookupTok_setKey_ne _ _ _ _ (Ne.symm hYX), ← hfacs1a]
        exact hlookY
      unfold get
      simp only [exec, if_neg hYC, hlookYb]
      simp [hmemoY, hv]

/-- An allocating factory (`() => new Foo()`), fnId 11. -/
def c4fn : FactoryFn := ⟨"X", [], 11, fun _ n => .obj n⟩

def c4A0 : Nat × St := providesService (mkContainer st0 []).2 (mkContainer st0 []).1 c4fn

def c4A : Nat × St := providesValue c4A0.2 c4A0.1 "Y" (.num 3)

def c4B : Nat × St := copy c4A.2 c4A.1 ["X"]

def c4SY : St := stOf (get 3 c4B.2 c4A.1 "Y")

/-- C4 (witness): the theorem applied to a container with an allocating
factory under `"X"` and the value `3` under `"Y"`: the two `get("X")`
calls yield the distinct instances `obj 0` and `obj 1` and the factory
logs twice, while `"Y"` resolves from the shared cached cell. -/
theorem C4_scoped_copy_isolation_witness :
    (∃ s₂ s₃, get 2 c4B.2 c4A.1 "X" = .ok (.obj 0, s₂) ∧
      get 2 s₂ c4B.1 "X" = .ok (.obj 1, s₃) ∧
      s₃.log = [11, 11] ∧ Value.obj 0 ≠ Value.obj 1) ∧
    get 2 c4SY c4B.1 "Y" = .ok (.num 3, c4SY) := by
  obtain ⟨⟨s₂, s₃, h1, h2, h3, h4⟩, _, hy⟩ :=
    C4_scoped_copy_isolation c4A.2 c4A.1 "X" 0 c4fn 0 0 c4B.1 c4B.2
      (by decide) rfl (by decide) rfl rfl rfl rfl
  refine ⟨⟨s₂, s₃, h1, h2, h3, ?_⟩, ?_⟩
  · refine h4 ?_
    intro n m hnm
    simp [c4fn]
    exact hnm
  · exact hy "Y" 3 0 (.num 3) c4SY (by decide) (by decide) rfl rfl

/-! ## Claim C9 -/

theorem getCell_allocCell_thisArg_stable (s : St) (d : Delegate) (n : Nat) (cid : Nat)
    (h : (getCell s cid).thisArg = n) :
    (getCell (allocCell s d n).2 cid).thisArg = n := by
  by_cases hlt : cid < s.cells.length
  · rw [getCell_allocCell_lt s d n cid hlt]
    exact h
  · by_cases heq : cid = s.cells.length
    · subst heq
      rw [getCell_allocCell_new]
    · have : (allocCell s d n).2.cells.length ≤ cid := by
        simp only [allocCell, List.length_append, List.length_cons, List.length_nil]
        omega
      rw [getCell_oob _ _ this]
      rw [getCell_oob s cid (by omega)] at h
      exact h

theorem getCell_mkCells_thisArg_stable (n : Nat) (es : List (Token × MF)) :
    ∀ (s : St) (cid : Nat), (getCell s cid).thisArg = n →
      (getCell (mkCells n s es).2 cid).thisArg = n := by
  induction es with
  | nil => exact fun s cid h => h
  | cons q rest ih =>
      intro s cid h
      obtain ⟨t, e⟩ := q
      cases e with
      | inr cid' =>
          rw [mkCells_cons_inr]
          exact ih (setThisArg s cid' n) cid (getCell_setThisArg_thisArg_stable s cid' n cid h)
      | inl d =>
          rw [mkCells_cons_inl]
          exact ih (allocCell s d n).2 cid (getCell_allocCell_thisArg_stable s d n cid h)

/-- The constructor loop reassigns every already-memoized entry to the
new owner while keeping its delegate and cache slot. -/
theorem getCell_mkCells_inr_mem (n : Nat) (es : List (Token × MF)) :
    ∀ (s : St) (cid : Nat), Sum.inr cid ∈ es.map Prod.snd → cid < s.cells.length →
      getCell (mkCells n s es).2 cid = { getCell s cid with thisArg := n } := by
  induction es with
  | nil =>
      intro s cid hmem
      simp at hmem
  | cons q rest ih =>
      intro s cid hmem hlt
      obtain ⟨t, e⟩ := q
      simp only [List.map_cons, List.mem_cons] at hmem
      cases e with
      | inr cid' =>
          rw [mkCells_cons_inr]
          rcases hmem with hmem | hmem
          · have hc : cid' = cid := by
              simp at hmem
              omega
            subst hc
            have hset : getCell (setThisArg s cid' n) cid'
                = { getCell s cid' with thisArg := n } := by
              rw [getCell_setThisArg_eq, if_pos ⟨rfl, hlt⟩]
            have hdm := getCell_mkCells n rest (setThisArg s cid' n) cid'
              (by rw [setThisArg_len]; exact hlt)
            have hta := getCell_mkCells_thisArg_stable n rest (setThisArg s cid' n) cid'
              (by rw [hset])
            refine Cell_eq_of_fields _ _ _ _ ?_ hta ?_
            · rw [hdm.1, hset]
            · rw [hdm.2, hset]
          · have hpres := getCell_setThisArg s cid' n cid
            have := ih (setThisArg s cid' n) cid hmem (by rw [setThisArg_len]; exact hlt)
            rw [this]
            refine Cell_eq_of_fields _ _ _ _ ?_ rfl ?_
            · exact hpres.1
            · exact hpres.2
      | inl d =>
          rw [mkCells_cons_inl]
          rcases hmem with hmem | hmem
          · exact absurd hmem (by simp)
          · have := ih (allocCell s d n).2 cid hmem
              (by simp only [allocCell, List.length_append, List.length_cons]; omega)
            rw [this, getCell_allocCell_lt s d n cid hlt]

def c9sA : Nat × St := providesValue (mkContainer st0 []).2 (mkContainer st0 []).1 "A" (.num 1)

def c9sB : Nat × St :=
  providesService c9sA.2 c9sA.1 ⟨"B", ["A"], 22, fun args _ => args.headD .undef⟩

def c9sA2 : Nat × St := providesValue c9sB.2 c9sB.1 "A" (.num 2)

/-- C9 (amended): whenever a new Container is constructed from existing
bindings, every already-memoized factory passed in keeps its single-slot
cache (delegate and memo unchanged, in particular an occupied cache is
untouched) and has its owner reference reassigned to the new Container
(first conjunct, over the constructor `mkContainer` on arbitrary
entries). For factories registered through `provides(fn)` — whose
closure resolves non-self dependencies via the owner — this makes
later-added overrides visible: in the second conjunct, `"B"` (registered
via `providesService` on a container where `"A" = 1`) resolves to `2`
after `"A"` is overridden, because its owner now is the newest registry.
Factories bound from a PartialContainer ignore the owner, see the
counterexample. -/
theorem C9_owner_rebinding :
    (∀ (s : St) (es : List (Token × MF)) (cid : Nat),
      Sum.inr cid ∈ es.map Prod.snd → cid < s.cells.length →
      getCell (mkContainer s es).2 cid
        = { getCell s cid with thisArg := (mkContainer s es).1 }) ∧
    (∃ s', get 9 c9sA2.2 c9sA2.1 "B" = .ok (.num 2, s')) := by
  constructor
  · intro s es cid hmem hlt
    rw [getCell_mkContainer, mkContainer_fst]
    exact getCell_mkCells_inr_mem s.conts.length es s cid hmem hlt
  · exact ⟨_, rfl⟩

def c9base : Nat × St := providesValue (mkContainer st0 []).2 (mkContainer st0 []).1 "A" (.num 1)

def c9p : PartialContainer :=
  PartialContainer.empty.provides ⟨"B", ["A"], 21, fun args _ => args.headD .undef⟩

def c9d : Nat × St := providesPartialC c9base.2 c9base.1 c9p

def c9e : Nat × St := providesValue c9d.2 c9d.1 "A" (.num 2)

/-- C9 (counterexample): the claim asserts that after owner rebinding,
dependency resolution of every not-yet-resolved memoized factory targets
the newest registry, so later-added overrides are visible to it. Build
`c = providesValue("A", 1)`, merge a PartialContainer defining
`B = (a) => a` (depending on `"A"`), then override `"A"` with `2`. The
newest registry resolves `"A"` to `2` (second conjunct), and `B`'s cell
did get its owner reassigned to the newest container — yet `get("B")`
returns `1`: the closure produced by `PartialContainer.getFactories` is
an arrow function that ignores its rebound `thisArg` and resolves
against the parent container captured at bind time, so the override is
not visible to it. -/
theorem C9_partial_resolves_parent :
    (∃ s', get 9 c9e.2 c9e.1 "B" = .ok (.num 1, s')) ∧
    (∃ s', get 9 c9e.2 c9e.1 "A" = .ok (.num 2, s')) :=
  ⟨⟨_, rfl⟩, ⟨_, rfl⟩⟩

def c9wS : St := ⟨[⟨.serviceFn dummyFn none, 0, .num 9⟩], [⟨[]⟩], 0, []⟩

/-- C9 (witness): the amended theorem applied to a one-cell heap: the
cell (holding a cached `9` and owner 0) is passed as an already-memoized
entry to a new container, which reassigns its owner to the fresh
container id 1 and keeps the cached value. -/
theorem C9_owner_rebinding_witness :
    getCell (mkContainer c9wS [("t", Sum.inr 0)]).2 0
      = ⟨.serviceFn dummyFn none, 1, .num 9⟩ := by
  have h := C9_owner_rebinding.1 c9wS [("t", Sum.inr 0)] 0 (by simp) (by decide)
  exact h

end TSI
